import Mathlib

/-!
# linode.go — request construction, error descriptions and dispatch

A shallow embedding of `linode/linode.go` (package `linode`).

* A Go string is its sequence of bytes, `GoString`; `str` gives the bytes of
  a string literal of the source.  Nothing makes a Go string well-formed
  UTF-8, and `encoding/json` treats the bytes that are not as the source
  says below (`decodeRune`, `appendString`).
* A Go `map[string]V` is an association list `GoMap V` whose keys are
  pairwise distinct, `get` being the index expression `m[k]` and `set` the
  assignment `m[k] = v`.  A `range` loop over a map visits the entries in
  list order; as Go leaves that order open, the statements about `Batch`
  hold for every order of a request's parameters (`Built`).
* A function with results `(T, error)` yields an `Outcome`: either it
  returned a value and an optional error, or it panicked at a named site.
* The network (`http.PostForm`, reading the body) and the decoding of a
  response body (`json.Unmarshal` into the envelope types) are parameters of
  the dispatch functions; every `PostForm` is recorded in the run.
-/

namespace Linode

deriving instance DecidableEq for Except

/-! ## Go strings -/

/-- A Go string: a sequence of bytes, each a number below 256; no statement
below needs that bound. -/
abbrev GoString := List Nat

/-- The UTF-8 encoding of a character (`utf8.EncodeRune`). -/
def utf8Bytes (c : Char) : List Nat :=
  if c.toNat < 128 then [c.toNat]
  else if c.toNat < 2048 then [192 + c.toNat / 64, 128 + c.toNat % 64]
  else if c.toNat < 65536 then
    [224 + c.toNat / 4096, 128 + c.toNat / 64 % 64, 128 + c.toNat % 64]
  else
    [240 + c.toNat / 262144, 128 + c.toNat / 4096 % 64, 128 + c.toNat / 64 % 64,
      128 + c.toNat % 64]

/-- The bytes of a text: of a string literal of the source, say. -/
def str (s : String) : GoString :=
  s.data.flatMap utf8Bytes

/-- The string is well-formed UTF-8: the encoding of some text. -/
def ValidUTF8 (s : GoString) : Prop :=
  ∃ chars : List Char, s = chars.flatMap utf8Bytes

/-- The call `utf8.DecodeRune` on a sequence that starts with a byte of 128 or
more: the character encoded at the start and the number of its bytes, or
`none` where the source gives `(RuneError, 1)`, that is when the bytes at the
start are not a well-formed encoding. -/
def decodeRune : List Nat → Option (Char × Nat)
  | [] => none
  | b0 :: rest =>
    if 194 ≤ b0 ∧ b0 ≤ 223 then
      match rest with
      | b1 :: _ =>
        if 128 ≤ b1 ∧ b1 ≤ 191 then some (Char.ofNat ((b0 - 192) * 64 + (b1 - 128)), 2)
        else none
      | _ => none
    else if 224 ≤ b0 ∧ b0 ≤ 239 then
      match rest with
      | b1 :: b2 :: _ =>
        if (if b0 = 224 then 160 else 128) ≤ b1 ∧ b1 ≤ (if b0 = 237 then 159 else 191)
            ∧ 128 ≤ b2 ∧ b2 ≤ 191 then
          some (Char.ofNat ((b0 - 224) * 4096 + (b1 - 128) * 64 + (b2 - 128)), 3)
        else none
      | _ => none
    else if 240 ≤ b0 ∧ b0 ≤ 244 then
      match rest with
      | b1 :: b2 :: b3 :: _ =>
        if (if b0 = 240 then 144 else 128) ≤ b1 ∧ b1 ≤ (if b0 = 244 then 143 else 191)
            ∧ 128 ≤ b2 ∧ b2 ≤ 191 ∧ 128 ≤ b3 ∧ b3 ≤ 191 then
          some (Char.ofNat ((b0 - 240) * 262144 + (b1 - 128) * 4096 + (b2 - 128) * 64
            + (b3 - 128)), 4)
        else none
      | _ => none
    else none

/-! ## Go maps -/

/-- A Go map with string keys, as an association list. -/
abbrev GoMap (V : Type) := List (GoString × V)

namespace GoMap

/-- The index expression `m[k]`, `none` when the key is absent. -/
def get {V : Type} : GoMap V → GoString → Option V
  | [], _ => none
  | (k', v) :: t, k => if k' = k then some v else get t k

/-- The assignment `m[k] = v`: overwrite in place or add an entry. -/
def set {V : Type} : GoMap V → GoString → V → GoMap V
  | [], k, v => [(k, v)]
  | (k', v') :: t, k, v => if k' = k then (k, v) :: t else (k', v') :: set t k v

/-- The key sequence of a map. -/
def keys {V : Type} (m : GoMap V) : List GoString := m.map Prod.fst

end GoMap

/-! ## Formatting (`fmt`, `strings`) -/

/-- The dynamic values an `interface{}` argument holds here (the scalars
whose `fmt` rendering is text). -/
inductive GoValue
  | str (s : GoString)
  | int (n : Int)
  | bool (b : Bool)
  | nil
  deriving DecidableEq, Repr

/-- The decimal rendering of an integer (`%d`). -/
def decimal (n : Int) : GoString :=
  if n < 0 then str ("-" ++ Nat.repr n.natAbs) else str (Nat.repr n.toNat)

/-- The call `fmt.Sprint(v)` for one operand. -/
def Sprint : GoValue → GoString
  | .str s => s
  | .int n => decimal n
  | .bool b => if b then str "true" else str "false"
  | .nil => str "<nil>"

/-- The type name `fmt` prints in a bad-verb report. -/
def typeName : GoValue → GoString
  | .str _ => str "string"
  | .int _ => str "int"
  | .bool _ => str "bool"
  | .nil => str "<nil>"

/-- The report `%!verb(type=value)` for a verb that does not fit its operand. -/
def badVerb (verb : Char) : GoValue → GoString
  | .nil => str "%!" ++ utf8Bytes verb ++ str "(<nil>)"
  | a => str "%!" ++ utf8Bytes verb ++ str "(" ++ typeName a ++ str "=" ++ Sprint a ++ str ")"

/-- One verb applied to one operand: `%v` on anything, `%d` on integers,
`%s` on strings; anything else is a bad-verb report. -/
def formatVerb (verb : Char) (a : GoValue) : GoString :=
  if verb = 'v' then Sprint a
  else match a with
    | .int n => if verb = 'd' then decimal n else badVerb verb a
    | .str s => if verb = 's' then s else badVerb verb a
    | _ => badVerb verb a

/-- The operands left over when the format is exhausted, as `fmt` lists them. -/
def extraArgs : List GoValue → GoString
  | [] => []
  | [a] => typeName a ++ (if a = GoValue.nil then [] else str "=" ++ Sprint a)
  | a :: b :: t => typeName a ++ (if a = GoValue.nil then [] else str "=" ++ Sprint a)
      ++ str ", " ++ extraArgs (b :: t)

/-- The report for operands left over when the format is exhausted. -/
def extraReport : List GoValue → GoString
  | [] => []
  | a :: t => str "%!(EXTRA " ++ extraArgs (a :: t) ++ str ")"

/-- The interpreter behind `fmt.Sprintf` for formats without flags, width
or precision: literal text is copied, `%%` is a percent sign, every other
`%c` consumes one operand.  `verb` tells that the previous character was an
unconsumed percent sign. -/
def sprintfAux : List Char → Bool → List GoValue → GoString
  | [], false, args => extraReport args
  | [], true, args => str "%!(NOVERB)" ++ extraReport args
  | c :: fmt, false, args =>
    if c = Char.ofNat 37 then sprintfAux fmt true args
    else utf8Bytes c ++ sprintfAux fmt false args
  | v :: fmt, true, args =>
    if v = Char.ofNat 37 then 37 :: sprintfAux fmt false args
    else match args with
      | [] => str "%!" ++ utf8Bytes v ++ str "(MISSING)" ++ sprintfAux fmt false []
      | a :: rest => formatVerb v a ++ sprintfAux fmt false rest

/-- The call `fmt.Sprintf(format, args...)` with a format written in the source. -/
def Sprintf (format : String) (args : List GoValue) : GoString :=
  sprintfAux format.data false args

/-- The call `strings.Join(elems, sep)`. -/
def Join : List GoString → GoString → GoString
  | [], _ => []
  | [a], _ => a
  | a :: b :: t, sep => a ++ sep ++ Join (b :: t) sep

/-! ## The error model -/

/-- An error returned from the Linode API. -/
structure LinodeError where
  Code : Int
  Message : GoString
  deriving DecidableEq, Repr

/-- A collection of errors from the Linode API. -/
abbrev LinodeErrors := List LinodeError

/-- The method `(*LinodeError).Error`. -/
def LinodeError.Error (self : LinodeError) : GoString :=
  Sprintf "linode error %d: %s" [.int self.Code, .str self.Message]

/-- The method `LinodeErrors.Error`: every element's description, joined. -/
def LinodeErrors.Error (self : LinodeErrors) : GoString :=
  Join (self.map fun err => err.Error) (str ", ")

/-! ## Requests -/

/-- The form values of a request (`url.Values`). -/
abbrev Values := GoMap (List GoString)

/-- The information required for a single API request. -/
structure APIRequest where
  params : Values
  deriving DecidableEq, Repr

/-- The loop of `NewAPIRequest` over the arguments. -/
def argValues (args : GoMap GoValue) (val : Values) : Values :=
  args.foldl (fun val kv => val.set kv.1 [Sprint kv.2]) val

/-- The constructor `NewAPIRequest(action, apiKey, args)`. -/
def NewAPIRequest (action apiKey : GoString) (args : GoMap GoValue) : APIRequest :=
  let val : Values := []
  let val := argValues args val
  let val := val.set (str "api_action") [action]
  let val := val.set (str "api_key") [apiKey]
  ⟨val⟩

/-! ## JSON text of a `[]map[string]string` (`encoding/json`) -/

/-- The double quote. -/
abbrev quote : Nat := 34

/-- The backslash. -/
abbrev backslash : Nat := 92

/-- A lower-case hexadecimal digit. -/
def hexDigit (n : Nat) : Nat :=
  if n < 10 then 48 + n else 87 + n

/-- How `json.Marshal` writes one byte below 128 of a string: the quote and
the backslash are escaped, backspace, form feed, line feed, carriage return and
tab have short escapes, the other control characters and `<`, `>`, `&` become
`\u00XX`, everything else is written as it is. -/
def escapeByte (b : Nat) : List Nat :=
  if b = quote ∨ b = backslash then [backslash, b]
  else if b = 8 then [backslash, 'b'.toNat]
  else if b = 12 then [backslash, 'f'.toNat]
  else if b = 10 then [backslash, 'n'.toNat]
  else if b = 13 then [backslash, 'r'.toNat]
  else if b = 9 then [backslash, 't'.toNat]
  else if b < 32 ∨ b = '<'.toNat ∨ b = '>'.toNat ∨ b = '&'.toNat then
    [backslash, 'u'.toNat, '0'.toNat, '0'.toNat, hexDigit (b / 16), hexDigit (b % 16)]
  else [b]

/-- The loop of `appendString` in `encoding/json`, one byte at a time: the
bytes written for the rest of a string.  `copy` counts the bytes of the current
character still to be copied as they are, `pass` those still to be passed
over.  At the start of a character a byte below 128 goes through `escapeByte`;
otherwise `utf8.DecodeRune` is asked: a byte that starts no well-formed
encoding is replaced by the escape of U+FFFD, the characters U+2028 and U+2029
are written as escapes, any other character is copied. -/
def appendString : List Nat → Nat → Nat → List Nat
  | [], _, _ => []
  | b :: rest, copy + 1, pass => b :: appendString rest copy pass
  | _ :: rest, 0, pass + 1 => appendString rest 0 pass
  | b :: rest, 0, 0 =>
    if b < 128 then escapeByte b ++ appendString rest 0 0
    else
      match decodeRune (b :: rest) with
      | none => str "\\ufffd" ++ appendString rest 0 0
      | some (c, size) =>
        if c.toNat = 8232 ∨ c.toNat = 8233 then
          str "\\u202" ++ hexDigit (c.toNat % 16) :: appendString rest 0 (size - 1)
        else b :: appendString rest (size - 1) 0

/-- A JSON string literal. -/
def encodeString (s : GoString) : List Nat :=
  quote :: (appendString s 0 0 ++ [quote])

/-- The byte-wise order of two keys. -/
def keyLE : GoString → GoString → Bool
  | [], _ => true
  | _ :: _, [] => false
  | a :: s, b :: t => if a < b then true else if b < a then false else keyLE s t

/-- The entries of a map in the order `json.Marshal` writes them: sorted by key. -/
def sortKeys (m : GoMap GoString) : GoMap GoString :=
  m.insertionSort fun a b => keyLE a.1 b.1 = true

/-- One `"key":"value"` member. -/
def encodeMember (kv : GoString × GoString) : List Nat :=
  encodeString kv.1 ++ ':'.toNat :: encodeString kv.2

/-- Members separated by commas. -/
def encodeMembers : List (GoString × GoString) → List Nat
  | [] => []
  | [kv] => encodeMember kv
  | kv :: kv' :: t => encodeMember kv ++ ','.toNat :: encodeMembers (kv' :: t)

/-- A JSON object for a (non-nil) `map[string]string`. -/
def encodeObject (m : GoMap GoString) : List Nat :=
  123 :: (encodeMembers (sortKeys m) ++ [125])

/-- Objects separated by commas. -/
def encodeObjects : List (GoMap GoString) → List Nat
  | [] => []
  | [m] => encodeObject m
  | m :: m' :: t => encodeObject m ++ ','.toNat :: encodeObjects (m' :: t)

/-- The JSON text of a (non-nil) `[]map[string]string`. -/
def jsonText (v : List (GoMap GoString)) : GoString :=
  '['.toNat :: (encodeObjects v ++ [']'.toNat])

/-- The call `json.Marshal` on a (non-nil) `[]map[string]string`.  It has no
failing case: since Go 1.2 a string that is not well-formed UTF-8 is coerced
(`appendString`), where earlier releases made the call fail. -/
def jsonMarshal (v : List (GoMap GoString)) : Except String GoString :=
  .ok (jsonText v)

/-- JSON white space. -/
def isSpace (b : Nat) : Bool :=
  b = 32 || b = 9 || b = 10 || b = 13

/-- Drop leading white space. -/
def skipSpace : List Nat → List Nat
  | [] => []
  | b :: t => if isSpace b then skipSpace t else b :: t

/-- The value of a hexadecimal digit. -/
def hexVal (b : Nat) : Option Nat :=
  if 48 ≤ b ∧ b ≤ 57 then some (b - 48)
  else if 97 ≤ b ∧ b ≤ 102 then some (b - 87)
  else if 65 ≤ b ∧ b ≤ 70 then some (b - 55)
  else none

/-- The value of four hexadecimal digits. -/
def hex4 (a b c d : Nat) : Option Nat := do
  let a ← hexVal a
  let b ← hexVal b
  let c ← hexVal c
  let d ← hexVal d
  pure (((a * 16 + b) * 16 + c) * 16 + d)

/-- The byte a one-letter escape stands for. -/
def unescape (e : Nat) : Option Nat :=
  if e = quote ∨ e = backslash ∨ e = '/'.toNat then some e
  else if e = 'b'.toNat then some 8
  else if e = 'f'.toNat then some 12
  else if e = 'n'.toNat then some 10
  else if e = 'r'.toNat then some 13
  else if e = 't'.toNat then some 9
  else none

/-- The low half of a surrogate pair, when the text starts with its escape. -/
def lowSurrogate : List Nat → Option (Nat × List Nat)
  | b :: u :: h1 :: h2 :: h3 :: h4 :: t =>
    if b = backslash ∧ u = 'u'.toNat then
      match hex4 h1 h2 h3 h4 with
      | some n => if 56320 ≤ n ∧ n < 57344 then some (n, t) else none
      | none => none
    else none
  | _ => none

/-- Read a string literal after its opening quote, as the decoder of
`encoding/json` does: the string it denotes and the text after its closing
quote.  An escape gives the encoding of its character (U+FFFD for a lone
surrogate), a byte below 128 itself, and bytes from 128 on go through
`utf8.DecodeRune`: a well-formed encoding is kept, any other byte becomes the
encoding of U+FFFD. -/
def parseString : Nat → List Nat → Option (GoString × List Nat)
  | 0, _ => none
  | _ + 1, [] => none
  | fuel + 1, c :: t =>
    if c = quote then some ([], t)
    else if c = backslash then
      match t with
      | [] => none
      | e :: t' =>
        if e = 'u'.toNat then
          match t' with
          | h1 :: h2 :: h3 :: h4 :: t'' =>
            match hex4 h1 h2 h3 h4 with
            | none => none
            | some n =>
              if 55296 ≤ n ∧ n < 56320 then
                match lowSurrogate t'' with
                | some (lo, t3) =>
                  (parseString fuel t3).map fun r =>
                    (utf8Bytes (Char.ofNat (65536 + (n - 55296) * 1024 + (lo - 56320))) ++ r.1,
                      r.2)
                | none =>
                  (parseString fuel t'').map fun r => (utf8Bytes (Char.ofNat 65533) ++ r.1, r.2)
              else if 56320 ≤ n ∧ n < 57344 then
                (parseString fuel t'').map fun r => (utf8Bytes (Char.ofNat 65533) ++ r.1, r.2)
              else (parseString fuel t'').map fun r => (utf8Bytes (Char.ofNat n) ++ r.1, r.2)
          | _ => none
        else
          match unescape e with
          | none => none
          | some d => (parseString fuel t').map fun r => (d :: r.1, r.2)
    else if c < 32 then none
    else if c < 128 then (parseString fuel t).map fun r => (c :: r.1, r.2)
    else
      match decodeRune (c :: t) with
      | none => (parseString fuel t).map fun r => (utf8Bytes (Char.ofNat 65533) ++ r.1, r.2)
      | some (ch, size) =>
        (parseString fuel (t.drop (size - 1))).map fun r => (utf8Bytes ch ++ r.1, r.2)

/-- Read a string literal, opening quote included. -/
def parseQuoted (fuel : Nat) : List Nat → Option (GoString × List Nat)
  | [] => none
  | c :: t => if c = quote then parseString fuel t else none

/-- Read one expected byte. -/
def expect (c : Nat) : List Nat → Option (List Nat)
  | [] => none
  | d :: t => if d = c then some t else none

/-- Read the members of an object from the first key on, up to and with the
closing brace, assigning each into the map in turn. -/
def parseMembers : Nat → List Nat → GoMap GoString → Option (GoMap GoString × List Nat)
  | 0, _, _ => none
  | fuel + 1, input, acc => do
    let (k, r) ← parseQuoted (fuel + 1) input
    let r ← expect ':'.toNat (skipSpace r)
    let (v, r) ← parseQuoted (fuel + 1) (skipSpace r)
    let acc := acc.set k v
    match skipSpace r with
    | [] => none
    | c :: r =>
      if c = ','.toNat then parseMembers fuel (skipSpace r) acc
      else if c = 125 then some (acc, r)
      else none

/-- Read an object, opening brace included. -/
def parseObject (fuel : Nat) (input : List Nat) : Option (GoMap GoString × List Nat) := do
  let r ← expect 123 input
  match skipSpace r with
  | [] => none
  | c :: r' => if c = 125 then some ([], r') else parseMembers fuel (c :: r') []

/-- Read the elements of an array from the first one on, up to and with the
closing bracket. -/
def parseElements : Nat → List Nat → Option (List (GoMap GoString) × List Nat)
  | 0, _ => none
  | fuel + 1, input => do
    let (m, r) ← parseObject (fuel + 1) input
    match skipSpace r with
    | [] => none
    | c :: r =>
      if c = ','.toNat then (parseElements fuel (skipSpace r)).map fun x => (m :: x.1, x.2)
      else if c = ']'.toNat then some ([m], r)
      else none

/-- The call `json.Unmarshal` of a text into a `[]map[string]string`, for the texts
that are an array of objects with string members; other texts are refused. -/
def jsonUnmarshal (text : GoString) : Except String (List (GoMap GoString)) :=
  let fuel := text.length + 1
  match expect '['.toNat (skipSpace text) with
  | none => .error "json: cannot unmarshal"
  | some r =>
    match skipSpace r with
    | [] => .error "unexpected end of JSON input"
    | c :: r' =>
      if c = ']'.toNat then (if skipSpace r' = [] then .ok [] else .error "invalid character")
      else match parseElements fuel (c :: r') with
        | some (ms, rest) => if skipSpace rest = [] then .ok ms else .error "invalid character"
        | none => .error "json: cannot unmarshal"

/-! ## Dispatch -/

/-- The error values the dispatch functions return; the text of an error is
kept as written in the source or given by the library. -/
inductive GoError
  /-- A `*LinodeError`. -/
  | linodeError (e : LinodeError)
  /-- A `LinodeErrors` collection. -/
  | linodeErrors (es : LinodeErrors)
  /-- An `errors.New(msg)` value. -/
  | errorsNew (msg : String)
  /-- An error of `net/http` or of reading the response body. -/
  | transport (msg : String)
  /-- An error of `encoding/json`. -/
  | json (msg : String)
  deriving DecidableEq, Repr

/-- The places where `Batch` indexes a slice. -/
inductive PanicSite
  /-- The read `requests[0].params["api_key"][0]`. -/
  | firstCredential
  /-- A read `v[0]` of a parameter's value list. -/
  | paramValue
  /-- The write `final[i]`. -/
  | resultIndex
  deriving DecidableEq, Repr

/-- How a call with results `(T, error)` ends. -/
inductive Outcome (α : Type)
  /-- The call returned `(val, err)`. -/
  | returned (val : α) (err : Option GoError)
  /-- The call panicked with an index out of range. -/
  | panicked (site : PanicSite)
  deriving DecidableEq, Repr

/-- A call together with the parameter sets it handed to `http.PostForm`. -/
structure Run (α : Type) where
  posts : List Values
  outcome : Outcome α
  deriving DecidableEq, Repr

/-- An HTTP response: reading its body to the end gives the bytes or fails. -/
structure Response where
  Body : Except String GoString
  deriving DecidableEq, Repr

/-- The decoded envelope of one reply; `Data` is the opaque payload, `none`
being the nil interface. -/
structure linodeResponse (D : Type) where
  Errors : List LinodeError
  Action : GoString
  Data : Option D
  deriving DecidableEq, Repr

/-- One response of a batch. -/
structure SingleResponse (D : Type) where
  Data : Option D
  Errors : List LinodeError
  deriving DecidableEq, Repr

/-- The helper `getWholeBody`. -/
def getWholeBody (resp : Response) : Except String GoString :=
  resp.Body

/-- The function `PerformRequest`, over the transport `PostForm` and the
decoder `unmarshal` of a body into one envelope. -/
def PerformRequest {D : Type} (PostForm : Values → Except String Response)
    (unmarshal : GoString → Except String (linodeResponse D)) (request : APIRequest) :
    Run (Option D) :=
  let posts := [request.params]
  match PostForm request.params with
  | .error err => ⟨posts, .returned none (some (.transport err))⟩
  | .ok resp =>
    match getWholeBody resp with
    | .error err => ⟨posts, .returned none (some (.transport err))⟩
    | .ok body =>
      match unmarshal body with
      | .error err => ⟨posts, .returned none (some (.json err))⟩
      | .ok result =>
        match result.Errors with
        | [] => ⟨posts, .returned result.Data none⟩
        | [e] => ⟨posts, .returned none (some (.linodeError e))⟩
        | _ => ⟨posts, .returned none (some (.linodeErrors result.Errors))⟩

/-- Why the construction of the request array stops early. -/
inductive Abort
  | error (e : GoError)
  | panic (site : PanicSite)
  deriving DecidableEq, Repr

/-- The error `Batch` returns for mixed credentials. -/
abbrev validationError : GoError :=
  .errorsNew "all requests in a batch must have the same api_key"

/-- The index expression `v[0]`. -/
def index0 (site : PanicSite) : List GoString → Except Abort GoString
  | [] => .error (.panic site)
  | x :: _ => .ok x

/-- The inner loop of `Batch` over the parameters of one request, filling `m`. -/
def flattenParams (apiKey : GoString) :
    Values → GoMap GoString → Except Abort (GoMap GoString)
  | [], m => .ok m
  | (k, v) :: rest, m =>
    if k = str "api_key" then
      match index0 .paramValue v with
      | .error a => .error a
      | .ok x =>
        if x ≠ apiKey then
          .error (.error validationError)
        else
          match index0 .paramValue v with
          | .error a => .error a
          | .ok x => flattenParams apiKey rest (m.set k x)
    else
      match index0 .paramValue v with
      | .error a => .error a
      | .ok x => flattenParams apiKey rest (m.set k x)

/-- The outer loop of `Batch` over the requests, giving `requestArray`. -/
def buildRequestArray (apiKey : GoString) :
    List APIRequest → Except Abort (List (GoMap GoString))
  | [] => .ok []
  | req :: rest =>
    match flattenParams apiKey req.params [] with
    | .error a => .error a
    | .ok m =>
      match buildRequestArray apiKey rest with
      | .error a => .error a
      | .ok ms => .ok (m :: ms)

/-- The last loop of `Batch`: envelope `i` is written to `final[i]`. -/
def fillFinal {D : Type} : List (linodeResponse D) → Nat → List (SingleResponse D) →
    Except PanicSite (List (SingleResponse D))
  | [], _, final => .ok final
  | lr :: rest, i, final =>
    if i < final.length then fillFinal rest (i + 1) (final.set i ⟨lr.Data, lr.Errors⟩)
    else .error .resultIndex

/-- The function `Batch`, over the transport `PostForm` and the decoder
`unmarshal` of a body into a sequence of envelopes.  The result slice is
`none` where the source returns `nil`.  After `json.Unmarshal(body, &results)`
the slice `results` has as many elements as the decoded array, whatever its
length before: decoding into a slice starts from length zero and appends. -/
def Batch {D : Type} (PostForm : Values → Except String Response)
    (unmarshal : GoString → Except String (List (linodeResponse D)))
    (requests : List APIRequest) : Run (Option (List (SingleResponse D))) :=
  match requests with
  | [] => ⟨[], .returned (some []) none⟩
  | first :: _ =>
    match index0 .firstCredential ((first.params.get (str "api_key")).getD []) with
    | .error _ => ⟨[], .panicked .firstCredential⟩
    | .ok apiKey =>
      let params : Values := []
      let params := params.set (str "api_key") [apiKey]
      let params := params.set (str "api_action") [str "batch"]
      match buildRequestArray apiKey requests with
      | .error (.panic site) => ⟨[], .panicked site⟩
      | .error (.error e) => ⟨[], .returned none (some e)⟩
      | .ok requestArray =>
        match jsonMarshal requestArray with
        | .error err => ⟨[], .returned none (some (.json err))⟩
        | .ok bytes =>
          let params := params.set (str "api_requestArray") [bytes]
          match PostForm params with
          | .error err => ⟨[params], .returned none (some (.transport err))⟩
          | .ok resp =>
            match getWholeBody resp with
            | .error err => ⟨[params], .returned none (some (.transport err))⟩
            | .ok body =>
              match unmarshal body with
              | .error err => ⟨[params], .returned none (some (.json err))⟩
              | .ok results =>
                let final : List (SingleResponse D) :=
                  List.replicate requests.length ⟨none, []⟩
                match fillFinal results 0 final with
                | .error site => ⟨[params], .panicked site⟩
                | .ok final => ⟨[params], .returned (some final) none⟩

/-! ## Vocabulary of the statements -/

/-- The request was built by `NewAPIRequest`: its parameters are the map of
some call `NewAPIRequest(action, apiKey, args)`, in whatever order a `range`
loop visits them. -/
def Built (r : APIRequest) : Prop :=
  ∃ action apiKey args, r.params.Perm (NewAPIRequest action apiKey args).params

/-- Every parameter name and every parameter value of the request is
well-formed UTF-8. -/
def TextParams (r : APIRequest) : Prop :=
  ∀ x ∈ r.params, ValidUTF8 x.1 ∧ ∀ v ∈ x.2, ValidUTF8 v

/-- What `json.Marshal` writes for one character of a well-formed string:
`escapeByte` below 128, an escape for U+2028 and U+2029, the encoding of the
character otherwise. -/
def escapeChar (c : Char) : List Nat :=
  if c.toNat < 128 then escapeByte c.toNat
  else if c.toNat = 8232 ∨ c.toNat = 8233 then str "\\u202" ++ [hexDigit (c.toNat % 16)]
  else utf8Bytes c

/-- The full parameter mapping of a request as a string-to-string map: every
parameter name with the first (for a built request, the only) string of its
value list. -/
def flat (params : Values) (m : GoMap GoString) : GoMap GoString :=
  params.foldl (fun m kv => m.set kv.1 (kv.2.headD [])) m

/-- The map that results from assigning the entries, in order, into `acc`. -/
def assignAll (kvs : List (GoString × GoString)) (acc : GoMap GoString) : GoMap GoString :=
  kvs.foldl (fun (acc : GoMap GoString) kv => GoMap.set acc kv.1 kv.2) acc

/-- The parameter set of the aggregate request of a batch. -/
def aggregate (apiKey : GoString) (requests : List APIRequest) : Values :=
  [(str "api_key", [apiKey]), (str "api_action", [str "batch"]),
    (str "api_requestArray", [jsonText (requests.map fun r => flat r.params [])])]

/-- The conversion of one envelope into one batch response. -/
def toSingle {D : Type} (lr : linodeResponse D) : SingleResponse D :=
  ⟨lr.Data, lr.Errors⟩

/-! ## Sample transports and decoders -/

/-- A transport whose every call succeeds with the given body. -/
def okPost (body : GoString) : Values → Except String Response :=
  fun _ => .ok ⟨.ok body⟩

/-- A batch decoder that yields the given envelopes for every body. -/
def fixedEnvelopes {D : Type} (results : List (linodeResponse D)) :
    GoString → Except String (List (linodeResponse D)) :=
  fun _ => .ok results

/-- A decoder that yields the given envelope for every body. -/
def fixedEnvelope {D : Type} (result : linodeResponse D) :
    GoString → Except String (linodeResponse D) :=
  fun _ => .ok result

/-- The first request of the sample program: `test.echo` with `foo = bar`. -/
def sampleFoo (apiKey : GoString) : APIRequest :=
  NewAPIRequest (str "test.echo") apiKey [(str "foo", .str (str "bar"))]

/-- The second request of the sample program: `test.echo` with `a = b`. -/
def sampleA (apiKey : GoString) : APIRequest :=
  NewAPIRequest (str "test.echo") apiKey [(str "a", .str (str "b"))]

/-- The request `test.echo` without arguments. -/
def sampleBare (apiKey : GoString) : APIRequest :=
  NewAPIRequest (str "test.echo") apiKey []

/-- Arguments of which one is named like the reserved credential key. -/
def shadowArgs : GoMap GoValue :=
  [(str "foo", .str (str "bar")), (str "api_key", .int 7)]

/-- An envelope with two errors and a payload. -/
def twoErrors : linodeResponse GoString :=
  ⟨[⟨1, str "a"⟩, ⟨2, str "b"⟩], str "test.echo", some (str "payload")⟩

/-- A reply to a batch of two: the first envelope holds an error, the second none. -/
def mixedReply : List (linodeResponse GoString) :=
  [⟨[⟨5, str "bad"⟩], str "test.echo", some (str "x")⟩,
    ⟨[], str "test.echo", some (str "y")⟩]

/-- The JSON text of the request array of `sampleFoo` and `sampleA` with the
credential `secret`. -/
def sampleArrayText : GoString :=
  str "[\x7b\"api_action\":\"test.echo\",\"api_key\":\"secret\",\"foo\":\"bar\"\x7d,"
    ++ str "\x7b\"a\":\"b\",\"api_action\":\"test.echo\",\"api_key\":\"secret\"\x7d]"

/-- The JSON text of the request array of the one request `test.echo` with the
credential `k` and an argument `x` whose value is the single byte `0xFF`: the
value is written as the escape of U+FFFD. -/
def coercedArrayText : GoString :=
  str "[\x7b\"api_action\":\"test.echo\",\"api_key\":\"k\",\"x\":\"\\ufffd\"\x7d]"

/-! ## Facts about maps -/

namespace GoMap

theorem get_set_self {V : Type} (m : GoMap V) (k : GoString) (v : V) :
    (m.set k v).get k = some v := by
  induction m with
  | nil => simp [set, get]
  | cons h t ih =>
    obtain ⟨k', v'⟩ := h
    by_cases hk : k' = k
    · simp [set, get, hk]
    · simp [set, get, hk, ih]

theorem get_set_ne {V : Type} (m : GoMap V) (k k' : GoString) (v : V) (h : k ≠ k') :
    (m.set k v).get k' = m.get k' := by
  induction m with
  | nil => simp [set, get, h]
  | cons hd t ih =>
    obtain ⟨k0, v0⟩ := hd
    by_cases hk : k0 = k
    · subst hk
      simp [set, get, h]
    · simp [set, get, hk, ih]

theorem mem_set {V : Type} (m : GoMap V) (k : GoString) (v : V) (x : GoString × V)
    (hx : x ∈ m.set k v) : x = (k, v) ∨ x ∈ m := by
  induction m with
  | nil => simpa [set] using hx
  | cons hd t ih =>
    obtain ⟨k0, v0⟩ := hd
    by_cases hk : k0 = k
    · simp only [set, hk, if_true, List.mem_cons] at hx
      rcases hx with hx | hx
      · exact Or.inl hx
      · exact Or.inr (List.mem_cons_of_mem _ hx)
    · simp only [set, hk, if_false, List.mem_cons] at hx
      rcases hx with hx | hx
      · exact Or.inr (by simp [hx])
      · rcases ih hx with h | h
        · exact Or.inl h
        · exact Or.inr (List.mem_cons_of_mem _ h)

theorem mem_keys_set {V : Type} (m : GoMap V) (k k' : GoString) (v : V) :
    k' ∈ (m.set k v).keys ↔ k' = k ∨ k' ∈ m.keys := by
  induction m with
  | nil => simp [set, keys]
  | cons hd t ih =>
    obtain ⟨k0, v0⟩ := hd
    by_cases hk : k0 = k
    · subst hk
      simp [set, keys]
    · simp only [set, hk, if_false]
      simp only [keys, List.map_cons, List.mem_cons] at ih ⊢
      rw [ih]
      tauto

theorem nodup_keys_set {V : Type} (m : GoMap V) (k : GoString) (v : V)
    (h : m.keys.Nodup) : (m.set k v).keys.Nodup := by
  induction m with
  | nil => simp [set, keys]
  | cons hd t ih =>
    obtain ⟨k0, v0⟩ := hd
    simp only [keys, List.map_cons, List.nodup_cons] at h
    by_cases hk : k0 = k
    · subst hk
      simp only [set, if_true, keys, List.map_cons, List.nodup_cons]
      exact h
    · simp only [set, hk, if_false]
      have h1 := ih h.2
      have h2 := mem_keys_set t k k0 v
      simp only [keys, List.map_cons, List.nodup_cons] at h1 h2 ⊢
      refine ⟨?_, h1⟩
      rw [h2]
      intro hc
      rcases hc with hc | hc
      · exact hk hc
      · exact h.1 hc

theorem get_eq_none_iff {V : Type} (m : GoMap V) (k : GoString) :
    m.get k = none ↔ k ∉ m.keys := by
  induction m with
  | nil => simp [get, keys]
  | cons hd t ih =>
    obtain ⟨k0, v0⟩ := hd
    by_cases hk : k0 = k
    · simp [get, keys, hk]
    · simp only [get, hk, if_false, ih, keys, List.map_cons, List.mem_cons]
      constructor
      · intro h hc
        rcases hc with hc | hc
        · exact hk hc.symm
        · exact h hc
      · intro h hc
        exact h (Or.inr hc)

theorem get_of_mem {V : Type} (m : GoMap V) (k : GoString) (v : V)
    (hn : m.keys.Nodup) (h : (k, v) ∈ m) : m.get k = some v := by
  induction m with
  | nil => simp at h
  | cons hd t ih =>
    obtain ⟨k0, v0⟩ := hd
    simp only [keys, List.map_cons, List.nodup_cons] at hn
    simp only [List.mem_cons, Prod.mk.injEq] at h
    rcases h with ⟨h1, h2⟩ | h
    · simp [get, h1, h2]
    · have hk : k0 ≠ k := by
        intro hc
        apply hn.1
        rw [hc]
        exact List.mem_map_of_mem Prod.fst h
      simp [get, hk, ih hn.2 h]

theorem mem_of_get {V : Type} (m : GoMap V) (k : GoString) (v : V)
    (h : m.get k = some v) : (k, v) ∈ m := by
  induction m with
  | nil => simp [get] at h
  | cons hd t ih =>
    obtain ⟨k0, v0⟩ := hd
    by_cases hk : k0 = k
    · simp only [get, hk, if_true, Option.some.injEq] at h
      simp [hk, h]
    · simp only [get, hk, if_false] at h
      exact List.mem_cons_of_mem _ (ih h)

end GoMap

/-! ## Facts about `NewAPIRequest` -/

theorem mem_keys_argValues (args : GoMap GoValue) (val : Values) (k : GoString) :
    k ∈ (argValues args val).keys ↔ k ∈ args.keys ∨ k ∈ val.keys := by
  induction args generalizing val with
  | nil => simp [argValues, GoMap.keys]
  | cons hd t ih =>
    have h := ih (val.set hd.1 [Sprint hd.2])
    simp only [argValues, List.foldl_cons] at h ⊢
    rw [h, GoMap.mem_keys_set]
    simp only [GoMap.keys, List.map_cons, List.mem_cons]
    tauto

theorem nodup_keys_argValues (args : GoMap GoValue) (val : Values)
    (h : val.keys.Nodup) : (argValues args val).keys.Nodup := by
  induction args generalizing val with
  | nil => simpa [argValues] using h
  | cons hd t ih =>
    simp only [argValues, List.foldl_cons]
    exact ih _ (GoMap.nodup_keys_set val _ _ h)

theorem get_argValues (args : GoMap GoValue) (val : Values) (k : GoString) (v : GoValue)
    (hn : args.keys.Nodup) (h : args.get k = some v) :
    (argValues args val).get k = some [Sprint v] := by
  have key : ∀ (t : GoMap GoValue) (w : Values), k ∉ t.keys →
      (argValues t w).get k = w.get k := by
    intro t
    induction t with
    | nil => intro w _; rfl
    | cons hd t ih =>
      intro w hk
      simp only [GoMap.keys, List.map_cons, List.mem_cons, not_or] at hk
      simp only [argValues, List.foldl_cons]
      have := ih (w.set hd.1 [Sprint hd.2]) hk.2
      simp only [argValues] at this
      rw [this, GoMap.get_set_ne]
      exact fun hc => hk.1 hc.symm
  induction args generalizing val with
  | nil => simp [GoMap.get] at h
  | cons hd t ih =>
    obtain ⟨k0, v0⟩ := hd
    simp only [GoMap.keys, List.map_cons, List.nodup_cons] at hn
    by_cases hk : k0 = k
    · subst hk
      simp only [GoMap.get, if_true, Option.some.injEq] at h
      subst h
      have := key t (val.set k0 [Sprint v0]) hn.1
      simp only [argValues, List.foldl_cons] at this ⊢
      rw [this, GoMap.get_set_self]
    · simp only [GoMap.get, hk, if_false] at h
      simp only [argValues, List.foldl_cons]
      exact ih _ hn.2 h

theorem singleton_argValues (args : GoMap GoValue) (val : Values)
    (h : ∀ x ∈ val, x.2.length = 1) : ∀ x ∈ argValues args val, x.2.length = 1 := by
  induction args generalizing val with
  | nil => simpa [argValues] using h
  | cons hd t ih =>
    simp only [argValues, List.foldl_cons]
    apply ih
    intro x hx
    rcases GoMap.mem_set _ _ _ _ hx with hx | hx
    · simp [hx]
    · exact h x hx

theorem NewAPIRequest_singletons (action apiKey : GoString) (args : GoMap GoValue) :
    ∀ x ∈ (NewAPIRequest action apiKey args).params, x.2.length = 1 := by
  intro x hx
  simp only [NewAPIRequest] at hx
  rcases GoMap.mem_set _ _ _ _ hx with hx | hx
  · simp [hx]
  · rcases GoMap.mem_set _ _ _ _ hx with hx | hx
    · simp [hx]
    · exact singleton_argValues args [] (by simp) x hx

theorem NewAPIRequest_nodup (action apiKey : GoString) (args : GoMap GoValue) :
    (NewAPIRequest action apiKey args).params.keys.Nodup := by
  simp only [NewAPIRequest]
  apply GoMap.nodup_keys_set
  apply GoMap.nodup_keys_set
  exact nodup_keys_argValues args [] (by simp [GoMap.keys])

theorem NewAPIRequest_get_key (action apiKey : GoString) (args : GoMap GoValue) :
    (NewAPIRequest action apiKey args).params.get (str "api_key") = some [apiKey] := by
  simp only [NewAPIRequest]
  exact GoMap.get_set_self _ _ _

theorem NewAPIRequest_get_action (action apiKey : GoString) (args : GoMap GoValue) :
    (NewAPIRequest action apiKey args).params.get (str "api_action") = some [action] := by
  simp only [NewAPIRequest]
  rw [GoMap.get_set_ne _ _ _ _ (by decide)]
  exact GoMap.get_set_self _ _ _

/-! ## Request construction (C1) -/

/-- C1: the request built by `NewAPIRequest(action, apiKey, args)` has as key
set the keys of `args` together with `api_action` and `api_key` (each once);
`api_action` maps to `[action]` and `api_key` to `[apiKey]` whatever `args`
holds under those names; every other key of `args` maps to the one-element
list with the string form of its argument. -/
theorem NewAPIRequest_params (action apiKey : GoString) (args : GoMap GoValue)
    (hargs : args.keys.Nodup) :
    (∀ k, k ∈ (NewAPIRequest action apiKey args).params.keys ↔
      (k ∈ args.keys ∨ k = (str "api_action") ∨ k = (str "api_key"))) ∧
    (NewAPIRequest action apiKey args).params.keys.Nodup ∧
    (NewAPIRequest action apiKey args).params.get (str "api_action") = some [action] ∧
    (NewAPIRequest action apiKey args).params.get (str "api_key") = some [apiKey] ∧
    (∀ k v, k ≠ (str "api_action") → k ≠ (str "api_key") → args.get k = some v →
      (NewAPIRequest action apiKey args).params.get k = some [Sprint v]) := by
  refine ⟨?_, NewAPIRequest_nodup _ _ _, NewAPIRequest_get_action _ _ _,
    NewAPIRequest_get_key _ _ _, ?_⟩
  · intro k
    simp only [NewAPIRequest]
    rw [GoMap.mem_keys_set, GoMap.mem_keys_set, mem_keys_argValues]
    simp only [GoMap.keys, List.map_nil, List.not_mem_nil, or_false]
    tauto
  · intro k v h1 h2 hget
    simp only [NewAPIRequest]
    rw [GoMap.get_set_ne _ _ _ _ (Ne.symm h2), GoMap.get_set_ne _ _ _ _ (Ne.symm h1)]
    exact get_argValues args [] k v hargs hget

/-- C1 at a concrete input: an argument named `api_key` does not shadow
the credential. -/
theorem NewAPIRequest_params_witness :
    (NewAPIRequest (str "test.echo") (str "secret") shadowArgs).params.get
      (str "api_key") = some [(str "secret")] ∧
    (NewAPIRequest (str "test.echo") (str "secret") shadowArgs).params.get
      (str "foo") = some [Sprint (.str (str "bar"))] :=
  have h := NewAPIRequest_params (str "test.echo") (str "secret") shadowArgs
    (by decide)
  ⟨h.2.2.2.1, h.2.2.2.2 (str "foo") (.str (str "bar")) (by decide) (by decide) (by decide)⟩

/-! ## Error descriptions (C3, C4) -/

theorem LinodeError_Error_eq (e : LinodeError) :
    e.Error = str "linode error " ++ decimal e.Code ++ str ": " ++ e.Message := by
  have h : e.Error
      = str "linode error " ++ (decimal e.Code ++ (str ": " ++ (e.Message ++ []))) := rfl
  rw [h]
  simp only [List.append_nil, List.append_assoc]

/-- C3, as stated, fails: the description of the error with code 7 and message
`boom` is not `error 7: boom`. -/
theorem LinodeError_Error_not_bare :
    (LinodeError.mk 7 (str "boom")).Error
      ≠ str "error " ++ decimal 7 ++ str ": " ++ str "boom" := by
  decide

/-- C3, amended: the description of a `LinodeError` with code `c` and message
`m` is the text `linode error `, the decimal rendering of `c`, `: ` and `m`. -/
theorem LinodeError_Error_format (c : Int) (m : GoString) :
    (LinodeError.mk c m).Error = str "linode error " ++ decimal c ++ str ": " ++ m :=
  LinodeError_Error_eq ⟨c, m⟩

theorem Join_eq_intercalate (l : List GoString) (sep : GoString) :
    Join l sep = sep.intercalate l := by
  induction l with
  | nil => rfl
  | cons a t ih =>
    cases t with
    | nil => simp [Join, List.intercalate]
    | cons b t' =>
      simp only [Join, ih]
      simp [List.intercalate, List.intersperse]

/-- C4: the description of a `LinodeErrors` collection is the descriptions of
its elements, in order, joined with `, `; the empty collection describes as the
empty string and a one-element collection as the description of its element. -/
theorem LinodeErrors_Error_joined (es : LinodeErrors) :
    LinodeErrors.Error es = (str ", ").intercalate (es.map LinodeError.Error) ∧
    LinodeErrors.Error [] = [] ∧
    (∀ e : LinodeError, LinodeErrors.Error [e] = e.Error) ∧
    (∀ (e : LinodeError) (rest : LinodeErrors), rest ≠ [] →
      LinodeErrors.Error (e :: rest) = e.Error ++ str ", " ++ LinodeErrors.Error rest) := by
  refine ⟨?_, rfl, fun _ => rfl, ?_⟩
  · simp only [LinodeErrors.Error]
    exact Join_eq_intercalate _ _
  · intro e rest h
    cases rest with
    | nil => exact absurd rfl h
    | cons b t => simp [LinodeErrors.Error, Join]

/-! ## Facts about the loops of `Batch` -/

theorem flattenParams_ok (apiKey : GoString) (params : Values) (m : GoMap GoString)
    (hs : ∀ x ∈ params, x.2.length = 1)
    (hk : ∀ x ∈ params, x.1 = (str "api_key") → x.2 = [apiKey]) :
    flattenParams apiKey params m = .ok (flat params m) := by
  induction params generalizing m with
  | nil => rfl
  | cons hd t ih =>
    obtain ⟨k, v⟩ := hd
    have hv : v.length = 1 := hs (k, v) (List.mem_cons_self _ _)
    have ht := fun m' => ih m' (fun x hx => hs x (List.mem_cons_of_mem _ hx))
      (fun x hx => hk x (List.mem_cons_of_mem _ hx))
    match v, hv with
    | [x], _ =>
      by_cases hkey : k = (str "api_key")
      · have := hk (k, [x]) (List.mem_cons_self _ _) hkey
        simp only [List.cons.injEq, and_true] at this
        subst this
        simp only [flattenParams, hkey, if_true, index0, ne_eq, not_true_eq_false, if_false,
          flat, List.foldl_cons, List.headD_cons]
        have h2 := ht (GoMap.set m (str "api_key") x)
        simpa [flat] using h2
      · simp only [flattenParams, hkey, if_false, index0, flat, List.foldl_cons,
          List.headD_cons]
        have h2 := ht (GoMap.set m k x)
        simpa [flat] using h2

theorem flattenParams_mismatch (apiKey : GoString) (params : Values) (m : GoMap GoString)
    (hs : ∀ x ∈ params, x.2.length = 1)
    (hk : ∃ x ∈ params, x.1 = (str "api_key") ∧ x.2 ≠ [apiKey]) :
    flattenParams apiKey params m = .error (.error validationError) := by
  induction params generalizing m with
  | nil => simp at hk
  | cons hd t ih =>
    obtain ⟨k, v⟩ := hd
    have hv : v.length = 1 := hs (k, v) (List.mem_cons_self _ _)
    have ht := fun m' => ih m' (fun x hx => hs x (List.mem_cons_of_mem _ hx))
    match v, hv with
    | [x], _ =>
      by_cases hkey : k = (str "api_key")
      · by_cases hx : x = apiKey
        · subst hx
          simp only [flattenParams, hkey, if_true, index0, ne_eq, not_true_eq_false, if_false]
          apply ht
          obtain ⟨y, hy, hy1, hy2⟩ := hk
          simp only [List.mem_cons] at hy
          rcases hy with hy | hy
          · subst hy
            exact absurd rfl hy2
          · exact ⟨y, hy, hy1, hy2⟩
        · simp [flattenParams, hkey, index0, hx]
      · simp only [flattenParams, hkey, if_false, index0]
        apply ht
        obtain ⟨y, hy, hy1, hy2⟩ := hk
        simp only [List.mem_cons] at hy
        rcases hy with hy | hy
        · subst hy
          exact absurd hy1 hkey
        · exact ⟨y, hy, hy1, hy2⟩

theorem buildRequestArray_ok (apiKey : GoString) (requests : List APIRequest)
    (hs : ∀ r ∈ requests, ∀ x ∈ r.params, x.2.length = 1)
    (hk : ∀ r ∈ requests, ∀ x ∈ r.params, x.1 = (str "api_key") → x.2 = [apiKey]) :
    buildRequestArray apiKey requests = .ok (requests.map fun r => flat r.params []) := by
  induction requests with
  | nil => rfl
  | cons r t ih =>
    have h1 := flattenParams_ok apiKey r.params [] (hs r (List.mem_cons_self _ _))
      (hk r (List.mem_cons_self _ _))
    have h2 := ih (fun r hr => hs r (List.mem_cons_of_mem _ hr))
      (fun r hr => hk r (List.mem_cons_of_mem _ hr))
    simp [buildRequestArray, h1, h2]

theorem buildRequestArray_mismatch (apiKey : GoString) (requests : List APIRequest)
    (hs : ∀ r ∈ requests, ∀ x ∈ r.params, x.2.length = 1)
    (hk : ∃ r ∈ requests, ∃ x ∈ r.params, x.1 = (str "api_key") ∧ x.2 ≠ [apiKey]) :
    buildRequestArray apiKey requests = .error (.error validationError) := by
  induction requests with
  | nil => simp at hk
  | cons r t ih =>
    by_cases hr : ∃ x ∈ r.params, x.1 = (str "api_key") ∧ x.2 ≠ [apiKey]
    · have h1 := flattenParams_mismatch apiKey r.params [] (hs r (List.mem_cons_self _ _)) hr
      simp [buildRequestArray, h1]
    · have hr' : ∀ x ∈ r.params, x.1 = (str "api_key") → x.2 = [apiKey] := by
        intro x hx hx1
        by_contra hc
        exact hr ⟨x, hx, hx1, hc⟩
      have h1 := flattenParams_ok apiKey r.params [] (hs r (List.mem_cons_self _ _)) hr'
      have h2 : buildRequestArray apiKey t = .error (.error validationError) := by
        apply ih (fun r hr => hs r (List.mem_cons_of_mem _ hr))
        obtain ⟨r', hr'mem, hx⟩ := hk
        simp only [List.mem_cons] at hr'mem
        rcases hr'mem with h | h
        · subst h
          exact absurd hx hr
        · exact ⟨r', h, hx⟩
      simp [buildRequestArray, h1, h2]

theorem fillFinal_spec {D : Type} (results : List (linodeResponse D))
    (pre : List (SingleResponse D)) (n : Nat) (z : SingleResponse D) :
    fillFinal results pre.length (pre ++ List.replicate n z) =
      if results.length ≤ n then
        .ok (pre ++ results.map toSingle ++ List.replicate (n - results.length) z)
      else .error .resultIndex := by
  induction results generalizing pre n with
  | nil => simp [fillFinal]
  | cons lr rest ih =>
    cases n with
    | zero => simp [fillFinal]
    | succ n =>
      have hlt : pre.length < (pre ++ List.replicate (n + 1) z).length := by simp
      have hset : (pre ++ List.replicate (n + 1) z).set pre.length ⟨lr.Data, lr.Errors⟩
          = (pre ++ [toSingle lr]) ++ List.replicate n z := by
        simp [List.replicate_succ, toSingle]
      have := ih (pre ++ [toSingle lr]) n
      simp only [List.length_append, List.length_singleton] at this
      simp only [fillFinal, hlt, if_true, hset, this, List.length_cons,
        Nat.add_le_add_iff_right, List.map_cons, Nat.add_sub_add_right]
      split <;> simp

theorem Built_new (action apiKey : GoString) (args : GoMap GoValue) :
    Built (NewAPIRequest action apiKey args) :=
  ⟨action, apiKey, args, List.Perm.refl _⟩

theorem Built_singletons (r : APIRequest) (h : Built r) : ∀ x ∈ r.params, x.2.length = 1 := by
  obtain ⟨a, k, args, hp⟩ := h
  intro x hx
  exact NewAPIRequest_singletons a k args x (hp.mem_iff.1 hx)

theorem Built_nodup (r : APIRequest) (h : Built r) : r.params.keys.Nodup := by
  obtain ⟨a, k, args, hp⟩ := h
  exact ((hp.map Prod.fst).nodup_iff).2 (NewAPIRequest_nodup a k args)

theorem Built_get (r : APIRequest) (action apiKey : GoString) (args : GoMap GoValue)
    (hp : r.params.Perm (NewAPIRequest action apiKey args).params) (k : GoString)
    (v : List GoString) (h : (NewAPIRequest action apiKey args).params.get k = some v) :
    r.params.get k = some v :=
  GoMap.get_of_mem _ _ _ (Built_nodup r ⟨action, apiKey, args, hp⟩)
    (hp.mem_iff.2 (GoMap.mem_of_get _ _ _ h))

theorem Built_credential (r : APIRequest) (h : Built r) :
    ∃ k, r.params.get (str "api_key") = some [k] := by
  obtain ⟨a, k, args, hp⟩ := h
  exact ⟨k, Built_get r a k args hp _ _ (NewAPIRequest_get_key a k args)⟩

theorem credential_entries (r : APIRequest) (key : GoString) (hb : Built r)
    (hc : r.params.get (str "api_key") = some [key]) :
    ∀ x ∈ r.params, x.1 = (str "api_key") → x.2 = [key] := by
  intro x hx hx1
  have := GoMap.get_of_mem r.params x.1 x.2 (Built_nodup r hb) hx
  rw [hx1, hc] at this
  exact (Option.some.inj this).symm

theorem Batch_shared {D : Type} (PostForm : Values → Except String Response)
    (unmarshal : GoString → Except String (List (linodeResponse D)))
    (first : APIRequest) (rest : List APIRequest) (key : GoString)
    (hb : ∀ r ∈ first :: rest, Built r)
    (hc : ∀ r ∈ first :: rest, r.params.get (str "api_key") = some [key]) :
    Batch PostForm unmarshal (first :: rest) =
      match PostForm (aggregate key (first :: rest)) with
      | .error err => ⟨[aggregate key (first :: rest)], .returned none (some (.transport err))⟩
      | .ok resp =>
        match getWholeBody resp with
        | .error err =>
          ⟨[aggregate key (first :: rest)], .returned none (some (.transport err))⟩
        | .ok body =>
          match unmarshal body with
          | .error err => ⟨[aggregate key (first :: rest)], .returned none (some (.json err))⟩
          | .ok results =>
            if results.length ≤ (first :: rest).length then
              ⟨[aggregate key (first :: rest)], .returned (some (results.map toSingle ++
                List.replicate ((first :: rest).length - results.length) ⟨none, []⟩)) none⟩
            else ⟨[aggregate key (first :: rest)], .panicked .resultIndex⟩ := by
  have hfirst := hc first (List.mem_cons_self _ _)
  have hbuild := buildRequestArray_ok key (first :: rest)
    (fun r hr => Built_singletons r (hb r hr))
    (fun r hr => credential_entries r key (hb r hr) (hc r hr))
  have hfill := fun (results : List (linodeResponse D)) =>
    fillFinal_spec results [] (first :: rest).length ⟨none, []⟩
  simp only [List.length_nil, List.nil_append] at hfill
  simp only [Batch, hfirst, Option.getD_some, index0, hbuild, jsonMarshal, hfill]
  have hagg : GoMap.set (GoMap.set (GoMap.set ([] : Values) (str "api_key") [key])
      (str "api_action")
      [(str "batch")]) (str "api_requestArray")
      [jsonText (List.map (fun r => flat r.params []) (first :: rest))]
      = aggregate key (first :: rest) := by
    have e1 : str "api_key" ≠ str "api_requestArray" := by decide
    have e2 : str "api_action" ≠ str "api_requestArray" := by decide
    have e3 : str "api_key" ≠ str "api_action" := by decide
    simp [GoMap.set, aggregate, e1, e2, e3]
  rw [hagg]
  cases PostForm (aggregate key (first :: rest)) with
  | error e => rfl
  | ok resp =>
    dsimp only
    cases getWholeBody resp with
    | error e => rfl
    | ok body =>
      dsimp only
      cases unmarshal body with
      | error e => rfl
      | ok results =>
        dsimp only
        by_cases hle : results.length ≤ (first :: rest).length <;>
          simp only [hle, if_true, if_false]

theorem Batch_mismatch {D : Type} (PostForm : Values → Except String Response)
    (unmarshal : GoString → Except String (List (linodeResponse D)))
    (first : APIRequest) (rest : List APIRequest)
    (hb : ∀ r ∈ first :: rest, Built r)
    (hm : ∃ r ∈ rest, r.params.get (str "api_key") ≠ first.params.get (str "api_key")) :
    Batch PostForm unmarshal (first :: rest) = ⟨[], .returned none (some validationError)⟩ := by
  obtain ⟨key, hfirst⟩ := Built_credential first (hb first (List.mem_cons_self _ _))
  have hbuild := buildRequestArray_mismatch key (first :: rest)
    (fun r hr => Built_singletons r (hb r hr))
    (by
      obtain ⟨r, hr, hne⟩ := hm
      obtain ⟨k', hk'⟩ := Built_credential r (hb r (List.mem_cons_of_mem _ hr))
      refine ⟨r, List.mem_cons_of_mem _ hr, (str "api_key", [k']), ?_, rfl, ?_⟩
      · exact GoMap.mem_of_get _ _ _ hk'
      · intro hc
        apply hne
        rw [hk', hfirst]
        simpa using hc)
  simp only [Batch, hfirst, Option.getD_some, index0, hbuild]

/-! ## Single requests (C2) -/

/-- C2: once the body of a single request is decoded into an envelope,
`PerformRequest` returns by the number of errors alone: the data and no error
for none, no data and the one `LinodeError` for one, no data and the
`LinodeErrors` collection of all of them, in order, for two or more; and on no
path at all does it return both data and an error. -/
theorem PerformRequest_by_error_count {D : Type}
    (PostForm : Values → Except String Response)
    (unmarshal : GoString → Except String (linodeResponse D))
    (request : APIRequest) :
    (∀ (resp : Response) (body : GoString) (env : linodeResponse D),
      PostForm request.params = .ok resp → getWholeBody resp = .ok body →
      unmarshal body = .ok env →
        (env.Errors.length = 0 →
          (PerformRequest PostForm unmarshal request).outcome = .returned env.Data none) ∧
        (∀ e, env.Errors = [e] →
          (PerformRequest PostForm unmarshal request).outcome
            = .returned none (some (.linodeError e))) ∧
        (2 ≤ env.Errors.length →
          (PerformRequest PostForm unmarshal request).outcome
            = .returned none (some (.linodeErrors env.Errors)))) ∧
    (∀ d err, (PerformRequest PostForm unmarshal request).outcome = .returned d err →
      d = none ∨ err = none) ∧
    (PerformRequest PostForm unmarshal request).posts = [request.params] := by
  refine ⟨?_, ?_, ?_⟩
  · intro resp body env hpost hbody hdec
    simp only [PerformRequest, hpost, hbody, hdec]
    rcases hE : env.Errors with _ | ⟨e, _ | ⟨e', t⟩⟩ <;> simp
  · intro d err
    simp only [PerformRequest]
    cases PostForm request.params with
    | error e => simp; intro h _; exact Or.inl h.symm
    | ok resp =>
      dsimp only
      cases getWholeBody resp with
      | error e => simp; intro h _; exact Or.inl h.symm
      | ok body =>
        dsimp only
        cases unmarshal body with
        | error e => simp; intro h _; exact Or.inl h.symm
        | ok env =>
          dsimp only
          rcases hE : env.Errors with _ | ⟨e, _ | ⟨e', t⟩⟩
          · simp; intro _ h; exact Or.inr h.symm
          · simp; intro h _; exact Or.inl h.symm
          · simp; intro h _; exact Or.inl h.symm
  · simp only [PerformRequest]
    cases PostForm request.params with
    | error e => rfl
    | ok resp =>
      dsimp only
      cases getWholeBody resp with
      | error e => rfl
      | ok body =>
        dsimp only
        cases unmarshal body with
        | error e => rfl
        | ok env =>
          dsimp only
          rcases hE : env.Errors with _ | ⟨e, _ | ⟨e', t⟩⟩ <;> rfl

/-- C2 at a concrete input: an envelope with two errors and a payload gives
the collection of both errors and no data. -/
theorem PerformRequest_by_error_count_witness :
    (PerformRequest (okPost (str "body"))
      (fixedEnvelope twoErrors)
      (sampleBare (str "secret"))).outcome
      = .returned none (some (.linodeErrors [⟨1, str "a"⟩, ⟨2, str "b"⟩])) :=
  ((PerformRequest_by_error_count (okPost (str "body"))
    (fixedEnvelope twoErrors)
    (sampleBare (str "secret"))).1 ⟨.ok (str "body")⟩ (str "body")
    twoErrors rfl rfl rfl).2.2 (by decide)

/-! ## Batches (C5, C6, C7, C9, C10) -/

/-- C9: `Batch` on the empty request sequence returns an empty result
sequence and no error, and makes no transport call. -/
theorem Batch_empty {D : Type} (PostForm : Values → Except String Response)
    (unmarshal : GoString → Except String (List (linodeResponse D))) :
    Batch PostForm unmarshal [] = ⟨[], .returned (some []) none⟩ := by
  rfl

/-- C5: for a non-empty sequence of requests built by `NewAPIRequest`,
`Batch` returns the validation error, with no result and without any transport
call, exactly when some request's `api_key` value differs from the first
request's. -/
theorem Batch_validation {D : Type} (PostForm : Values → Except String Response)
    (unmarshal : GoString → Except String (List (linodeResponse D)))
    (first : APIRequest) (rest : List APIRequest)
    (hb : ∀ r ∈ first :: rest, Built r) :
    (Batch PostForm unmarshal (first :: rest) = ⟨[], .returned none (some validationError)⟩ ↔
      ∃ r ∈ rest, r.params.get (str "api_key") ≠ first.params.get (str "api_key")) ∧
    ((∃ val, (Batch PostForm unmarshal (first :: rest)).outcome
        = .returned val (some validationError)) ↔
      ∃ r ∈ rest, r.params.get (str "api_key") ≠ first.params.get (str "api_key")) := by
  have hback := Batch_mismatch PostForm unmarshal first rest hb
  have hforw : (∃ val, (Batch PostForm unmarshal (first :: rest)).outcome
        = .returned val (some validationError)) →
      ∃ r ∈ rest, r.params.get (str "api_key") ≠ first.params.get (str "api_key") := by
    intro hval
    by_contra hno
    obtain ⟨key, hfirst⟩ := Built_credential first (hb first (List.mem_cons_self _ _))
    have hc : ∀ r ∈ first :: rest, r.params.get (str "api_key") = some [key] := by
      intro r hr
      simp only [List.mem_cons] at hr
      rcases hr with hr | hr
      · rw [hr, hfirst]
      · by_contra hne
        exact hno ⟨r, hr, by rw [hfirst]; exact hne⟩
    rw [Batch_shared PostForm unmarshal first rest key hb hc] at hval
    obtain ⟨val, hval⟩ := hval
    cases hP : PostForm (aggregate key (first :: rest)) with
    | error e => simp [hP] at hval
    | ok resp =>
      cases hB : getWholeBody resp with
      | error e => simp [hP, hB] at hval
      | ok body =>
        cases hU : unmarshal body with
        | error e => simp [hP, hB, hU] at hval
        | ok results =>
          simp only [hP, hB, hU] at hval
          split at hval <;> simp at hval
  refine ⟨⟨fun h => hforw ⟨none, by rw [h]⟩, hback⟩,
    ⟨hforw, fun h => ⟨none, by rw [hback h]⟩⟩⟩

/-- C5 at a concrete input: three requests of which the second carries another
credential. -/
theorem Batch_validation_witness :
    Batch (okPost (str "[]")) (fixedEnvelopes ([] : List (linodeResponse GoString)))
      [sampleFoo (str "k1"),
       sampleA (str "k2"),
       sampleBare (str "k1")]
      = ⟨[], .returned none (some validationError)⟩ :=
  (Batch_validation (okPost (str "[]")) (fixedEnvelopes ([] : List (linodeResponse GoString)))
    (sampleFoo (str "k1"))
    [sampleA (str "k2"), sampleBare (str "k1")]
    (by
      intro r hr
      simp only [List.mem_cons, List.mem_singleton, List.not_mem_nil, or_false] at hr
      rcases hr with hr | hr | hr <;> subst hr <;> exact Built_new _ _ _)).1.mpr
    ⟨sampleA (str "k2"), List.mem_cons_self _ _, by decide⟩

/-- C6: for `N ≥ 1` built requests that share a credential, when the
transport call succeeds and the body decodes to `N` envelopes, `Batch` makes
exactly one transport call and returns, without error, `N` responses of which
response `i` carries the data and the errors of envelope `i`, whether or not
that envelope holds errors. -/
theorem Batch_success {D : Type} (PostForm : Values → Except String Response)
    (unmarshal : GoString → Except String (List (linodeResponse D)))
    (first : APIRequest) (rest : List APIRequest) (key : GoString)
    (resp : Response) (body : GoString) (results : List (linodeResponse D))
    (hb : ∀ r ∈ first :: rest, Built r)
    (hc : ∀ r ∈ first :: rest, r.params.get (str "api_key") = some [key])
    (hpost : PostForm (aggregate key (first :: rest)) = .ok resp)
    (hbody : getWholeBody resp = .ok body)
    (hdec : unmarshal body = .ok results)
    (hlen : results.length = (first :: rest).length) :
    (Batch PostForm unmarshal (first :: rest)).posts.length = 1 ∧
    (Batch PostForm unmarshal (first :: rest)).outcome
      = .returned (some (results.map toSingle)) none ∧
    (results.map toSingle).length = (first :: rest).length ∧
    (∀ (i : Nat) (lr : linodeResponse D), results[i]? = some lr →
      (results.map toSingle)[i]? = some (SingleResponse.mk lr.Data lr.Errors)) := by
  rw [Batch_shared PostForm unmarshal first rest key hb hc]
  simp only [hpost, hbody, hdec, hlen, le_refl, if_true, Nat.sub_self, List.replicate_zero,
    List.append_nil, List.length_singleton, List.length_map, true_and]
  intro i lr hi
  simp [List.getElem?_map, hi, toSingle]

/-- C6 at a concrete input: two requests, two envelopes of which the first
holds an error. -/
theorem Batch_success_witness :
    (Batch (okPost (str "body"))
      (fixedEnvelopes mixedReply)
      [sampleFoo (str "k"),
       sampleA (str "k")]).outcome
      = .returned (some [⟨some (str "x"), [⟨5, str "bad"⟩]⟩, ⟨some (str "y"), []⟩])
          none :=
  (Batch_success (okPost (str "body"))
    (fixedEnvelopes mixedReply)
    (sampleFoo (str "k"))
    [sampleA (str "k")] (str "k") ⟨.ok (str "body")⟩ (str "body")
    mixedReply
    (by
      intro r hr
      simp only [List.mem_cons, List.mem_singleton, List.not_mem_nil, or_false] at hr
      rcases hr with hr | hr <;> subst hr <;> exact Built_new _ _ _)
    (by
      intro r hr
      simp only [List.mem_cons, List.mem_singleton, List.not_mem_nil, or_false] at hr
      rcases hr with hr | hr <;> subst hr <;> decide)
    rfl rfl rfl rfl).2.1

/-- What `Batch` does with a reply of another length than the batch: more
envelopes than requests make the write `final[i]` panic, fewer leave the
trailing responses at their zero value, without an error. -/
theorem Batch_reply_length {D : Type} (PostForm : Values → Except String Response)
    (unmarshal : GoString → Except String (List (linodeResponse D)))
    (first : APIRequest) (rest : List APIRequest) (key : GoString)
    (resp : Response) (body : GoString) (results : List (linodeResponse D))
    (hb : ∀ r ∈ first :: rest, Built r)
    (hc : ∀ r ∈ first :: rest, r.params.get (str "api_key") = some [key])
    (hpost : PostForm (aggregate key (first :: rest)) = .ok resp)
    (hbody : getWholeBody resp = .ok body)
    (hdec : unmarshal body = .ok results) :
    ((first :: rest).length < results.length →
      (Batch PostForm unmarshal (first :: rest)).outcome = .panicked .resultIndex) ∧
    (results.length < (first :: rest).length →
      (Batch PostForm unmarshal (first :: rest)).outcome
        = .returned (some (results.map toSingle ++
            List.replicate ((first :: rest).length - results.length) ⟨none, []⟩)) none) := by
  rw [Batch_shared PostForm unmarshal first rest key hb hc]
  simp only [hpost, hbody, hdec]
  constructor
  · intro h
    have : ¬ results.length ≤ (first :: rest).length := by omega
    simp only [this, if_false]
  · intro h
    have : results.length ≤ (first :: rest).length := by omega
    simp only [this, if_true]

/-- C7, on the code: with one request, a reply of two envelopes makes `Batch`
panic at the write `final[i]`, and a reply of no envelope makes it return one
zero-valued response and no error; neither is a decode error. -/
theorem Batch_reply_length_mismatch :
    (Batch (okPost (str "[\x7b\x7d,\x7b\x7d]"))
      (fixedEnvelopes [⟨[], [], (none : Option GoString)⟩, ⟨[], [], none⟩])
      [sampleBare (str "k")]).outcome = .panicked .resultIndex ∧
    (Batch (okPost (str "[]")) (fixedEnvelopes ([] : List (linodeResponse GoString)))
      [sampleBare (str "k")]).outcome
        = .returned (some [⟨none, []⟩]) none := by
  decide

/-- C10: every parameter of a request built by `NewAPIRequest`, and `api_key`
in particular, holds exactly one string; so for a non-empty sequence of built
requests `Batch` panics neither at the read of the first credential nor at a
read `v[0]`; and with a first request that has no `api_key` (the zero value
of `APIRequest`, say) it panics at the read of the first credential. -/
theorem Batch_first_element_reads (D : Type) :
    (∀ action apiKey args, ∀ x ∈ (NewAPIRequest action apiKey args).params,
      x.2.length = 1) ∧
    (∀ action apiKey args,
      (NewAPIRequest action apiKey args).params.get (str "api_key") = some [apiKey]) ∧
    (∀ (PostForm : Values → Except String Response)
      (unmarshal : GoString → Except String (List (linodeResponse D)))
      (first : APIRequest) (rest : List APIRequest),
      (∀ r ∈ first :: rest, Built r) →
        (Batch PostForm unmarshal (first :: rest)).outcome ≠ .panicked .firstCredential ∧
        (Batch PostForm unmarshal (first :: rest)).outcome ≠ .panicked .paramValue) ∧
    (∀ (PostForm : Values → Except String Response)
      (unmarshal : GoString → Except String (List (linodeResponse D)))
      (first : APIRequest) (rest : List APIRequest),
      first.params.get (str "api_key") = none →
        Batch PostForm unmarshal (first :: rest) = ⟨[], .panicked .firstCredential⟩) ∧
    (∀ (PostForm : Values → Except String Response)
      (unmarshal : GoString → Except String (List (linodeResponse D)))
      (rest : List APIRequest),
      Batch PostForm unmarshal (⟨[]⟩ :: rest) = ⟨[], .panicked .firstCredential⟩) := by
  refine ⟨NewAPIRequest_singletons, NewAPIRequest_get_key, ?_, ?_, ?_⟩
  · intro PostForm unmarshal first rest hb
    by_cases hm : ∃ r ∈ rest, r.params.get (str "api_key") ≠ first.params.get (str "api_key")
    · rw [Batch_mismatch PostForm unmarshal first rest hb hm]
      simp
    · obtain ⟨key, hfirst⟩ := Built_credential first (hb first (List.mem_cons_self _ _))
      have hc : ∀ r ∈ first :: rest, r.params.get (str "api_key") = some [key] := by
        intro r hr
        simp only [List.mem_cons] at hr
        rcases hr with hr | hr
        · rw [hr, hfirst]
        · by_contra hne
          exact hm ⟨r, hr, by rw [hfirst]; exact hne⟩
      rw [Batch_shared PostForm unmarshal first rest key hb hc]
      cases PostForm (aggregate key (first :: rest)) with
      | error e => simp
      | ok resp =>
        dsimp only
        cases getWholeBody resp with
        | error e => simp
        | ok body =>
          dsimp only
          cases unmarshal body with
          | error e => simp
          | ok results =>
            dsimp only
            split <;> simp
  · intro PostForm unmarshal first rest hnone
    simp [Batch, hnone, index0]
  · intro PostForm unmarshal rest
    simp [Batch, GoMap.get, index0]

/-- C10 at a concrete input: a built request passes both reads, the zero
value of `APIRequest` in first position fails the first one. -/
theorem Batch_first_element_reads_witness :
    (Batch (okPost (str "[]")) (fixedEnvelopes ([] : List (linodeResponse GoString)))
      [sampleFoo (str "secret")]).outcome
        ≠ .panicked .firstCredential ∧
    Batch (okPost (str "[]")) (fixedEnvelopes ([] : List (linodeResponse GoString)))
      [⟨[]⟩, sampleBare (str "secret")] = ⟨[], .panicked .firstCredential⟩ :=
  ⟨((Batch_first_element_reads GoString).2.2.1 (okPost (str "[]")) (fixedEnvelopes [])
      (sampleFoo (str "secret")) []
      (by
        intro r hr
        simp only [List.mem_singleton] at hr
        subst hr
        exact Built_new _ _ _)).1,
    (Batch_first_element_reads GoString).2.2.2.2 (okPost (str "[]")) (fixedEnvelopes [])
      [sampleBare (str "secret")]⟩

/-! ## UTF-8 and the JSON text of the request array (C8) -/

theorem char_range (c : Char) :
    c.toNat < 55296 ∨ (57343 < c.toNat ∧ c.toNat < 1114112) := c.valid

theorem decodeRune_utf8Bytes (c : Char) (rest : List Nat) (h : 128 ≤ c.toNat) :
    decodeRune (utf8Bytes c ++ rest) = some (c, (utf8Bytes c).length) := by
  have hv := char_range c
  have hc : ∀ m, m = c.toNat → Char.ofNat m = c := by
    intro m hm
    rw [hm, Char.ofNat_toNat]
  unfold utf8Bytes
  generalize c.toNat = n at h hv hc ⊢
  have hn : ¬ n < 128 := by omega
  by_cases h1 : n < 2048
  · simp only [hn, h1, if_true, if_false, List.cons_append, List.nil_append, decodeRune,
      List.length_cons, List.length_nil]
    have c1 : 194 ≤ 192 + n / 64 ∧ 192 + n / 64 ≤ 223 := by omega
    have c2 : 128 ≤ 128 + n % 64 ∧ 128 + n % 64 ≤ 191 := by omega
    simp only [c1, c2, and_self, if_true]
    rw [hc _ (by omega)]
  by_cases h2 : n < 65536
  · simp only [hn, h1, h2, if_true, if_false, List.cons_append, List.nil_append, decodeRune,
      List.length_cons, List.length_nil]
    have c0 : ¬ (194 ≤ 224 + n / 4096 ∧ 224 + n / 4096 ≤ 223) := by omega
    have c1 : 224 ≤ 224 + n / 4096 ∧ 224 + n / 4096 ≤ 239 := by omega
    have c2 : (if 224 + n / 4096 = 224 then 160 else 128) ≤ 128 + n / 64 % 64
        ∧ 128 + n / 64 % 64 ≤ (if 224 + n / 4096 = 237 then 159 else 191)
        ∧ 128 ≤ 128 + n % 64 ∧ 128 + n % 64 ≤ 191 := by
      refine ⟨?_, ?_, by omega, by omega⟩
      · split <;> omega
      · split <;> omega
    simp only [c0, c1, c2, and_self, if_true, if_false]
    rw [hc _ (by omega)]
  · simp only [hn, h1, h2, if_true, if_false, List.cons_append, List.nil_append, decodeRune,
      List.length_cons, List.length_nil]
    have c0 : ¬ (194 ≤ 240 + n / 262144 ∧ 240 + n / 262144 ≤ 223) := by omega
    have c0' : ¬ (224 ≤ 240 + n / 262144 ∧ 240 + n / 262144 ≤ 239) := by omega
    have c1 : 240 ≤ 240 + n / 262144 ∧ 240 + n / 262144 ≤ 244 := by omega
    have c2 : (if 240 + n / 262144 = 240 then 144 else 128) ≤ 128 + n / 4096 % 64
        ∧ 128 + n / 4096 % 64 ≤ (if 240 + n / 262144 = 244 then 143 else 191)
        ∧ 128 ≤ 128 + n / 64 % 64 ∧ 128 + n / 64 % 64 ≤ 191
        ∧ 128 ≤ 128 + n % 64 ∧ 128 + n % 64 ≤ 191 := by
      refine ⟨?_, ?_, by omega, by omega, by omega, by omega⟩
      · split <;> omega
      · split <;> omega
    simp only [c0, c0', c1, c2, and_self, if_true, if_false]
    rw [hc _ (by omega)]

theorem utf8Bytes_head (c : Char) (h : 128 ≤ c.toNat) :
    ∃ b tail, utf8Bytes c = b :: tail ∧ 128 ≤ b := by
  unfold utf8Bytes
  have hn : ¬ c.toNat < 128 := by omega
  simp only [hn, if_false]
  split_ifs
  · exact ⟨_, _, rfl, by omega⟩
  · exact ⟨_, _, rfl, by omega⟩
  · exact ⟨_, _, rfl, by omega⟩

theorem utf8Bytes_ascii (c : Char) (h : c.toNat < 128) : utf8Bytes c = [c.toNat] := by
  simp [utf8Bytes, h]

theorem appendString_copy (bs rest : List Nat) :
    appendString (bs ++ rest) bs.length 0 = bs ++ appendString rest 0 0 := by
  induction bs with
  | nil => rfl
  | cons b t ih => simp [appendString, ih]

theorem appendString_pass (bs rest : List Nat) :
    appendString (bs ++ rest) 0 bs.length = appendString rest 0 0 := by
  induction bs with
  | nil => rfl
  | cons b t ih => simp [appendString, ih]

theorem appendString_char (c : Char) (rest : List Nat) :
    appendString (utf8Bytes c ++ rest) 0 0 = escapeChar c ++ appendString rest 0 0 := by
  by_cases h : c.toNat < 128
  · simp [utf8Bytes_ascii c h, appendString, escapeChar, h]
  · have h' : 128 ≤ c.toNat := by omega
    obtain ⟨b, tail, hbt, hb⟩ := utf8Bytes_head c h'
    have hdec := decodeRune_utf8Bytes c rest h'
    rw [hbt] at hdec ⊢
    have hb' : ¬ b < 128 := by omega
    simp only [List.cons_append, appendString, hb', if_false, List.append_eq]
    simp only [List.cons_append] at hdec
    rw [hdec]
    simp only [List.length_cons, Nat.add_sub_cancel]
    by_cases hs : c.toNat = 8232 ∨ c.toNat = 8233
    · simp only [hs, if_true, escapeChar, h, if_false]
      rw [appendString_pass]
      simp
    · simp only [hs, if_false, escapeChar, h]
      rw [appendString_copy, hbt]
      simp

theorem appendString_text (chars : List Char) :
    appendString (chars.flatMap utf8Bytes) 0 0 = chars.flatMap escapeChar := by
  induction chars with
  | nil => rfl
  | cons c t ih =>
    simp only [List.flatMap_cons]
    rw [appendString_char, ih]

theorem parseString_escapeByte_low (n : Nat) (hn : n < 32) (fuel : Nat) (rest : List Nat) :
    parseString (fuel + 1) (escapeByte n ++ rest)
      = (parseString fuel rest).map fun r => (n :: r.1, r.2) := by
  interval_cases n <;> rfl

theorem parseString_escapeByte (n : Nat) (hn : n < 128) (fuel : Nat) (rest : List Nat) :
    parseString (fuel + 1) (escapeByte n ++ rest)
      = (parseString fuel rest).map fun r => (n :: r.1, r.2) := by
  by_cases hlow : n < 32
  · exact parseString_escapeByte_low n hlow fuel rest
  by_cases h1 : n = 34
  · subst h1; rfl
  by_cases h2 : n = 92
  · subst h2; rfl
  by_cases h3 : n = 60
  · subst h3; rfl
  by_cases h4 : n = 62
  · subst h4; rfl
  by_cases h5 : n = 38
  · subst h5; rfl
  have e8 : n ≠ 8 := by omega
  have e12 : n ≠ 12 := by omega
  have e10 : n ≠ 10 := by omega
  have e13 : n ≠ 13 := by omega
  have e9 : n ≠ 9 := by omega
  have t1 : '<'.toNat = 60 := rfl
  have t2 : '>'.toNat = 62 := rfl
  have t3 : '&'.toNat = 38 := rfl
  simp [escapeByte, parseString, hlow, h1, h2, h3, h4, h5, e8, e12, e10, e13, e9, t1, t2, t3,
    hn]

theorem parseString_escapeChar (c : Char) (fuel : Nat) (rest : List Nat) :
    parseString (fuel + 1) (escapeChar c ++ rest)
      = (parseString fuel rest).map fun r => (utf8Bytes c ++ r.1, r.2) := by
  by_cases h : c.toNat < 128
  · rw [utf8Bytes_ascii c h]
    simp only [escapeChar, h, if_true]
    exact parseString_escapeByte c.toNat h fuel rest
  by_cases h6 : c.toNat = 8232
  · have : c = Char.ofNat 8232 := by rw [← h6, Char.ofNat_toNat]
    subst this; rfl
  by_cases h7 : c.toNat = 8233
  · have : c = Char.ofNat 8233 := by rw [← h7, Char.ofNat_toNat]
    subst this; rfl
  have h' : 128 ≤ c.toNat := by omega
  obtain ⟨b, tail, hbt, hb⟩ := utf8Bytes_head c h'
  have hdec := decodeRune_utf8Bytes c rest h'
  simp only [escapeChar, h, h6, h7, or_self, if_false]
  have q1 : b ≠ 34 := by omega
  have q2 : b ≠ 92 := by omega
  have q3 : ¬ b < 32 := by omega
  have q4 : ¬ b < 128 := by omega
  have hbt' := hbt
  rw [hbt] at hdec ⊢
  simp only [List.cons_append] at hdec ⊢
  simp only [parseString, q1, q2, q3, q4, if_false, hdec, List.length_cons,
    Nat.add_sub_cancel, List.drop_left, hbt', List.cons_append]

theorem length_escapeChar_pos (c : Char) : 1 ≤ (escapeChar c).length := by
  unfold escapeChar escapeByte utf8Bytes
  split_ifs <;> simp

theorem length_flatMap_escapeChar (chars : List Char) :
    chars.length ≤ (chars.flatMap escapeChar).length := by
  induction chars with
  | nil => simp
  | cons c t ih =>
    have := length_escapeChar_pos c
    simp only [List.flatMap_cons, List.length_append, List.length_cons]
    omega

theorem parseString_encoded (chars : List Char) (rest : List Nat) (fuel : Nat)
    (h : chars.length < fuel) :
    parseString fuel (chars.flatMap escapeChar ++ quote :: rest)
      = some (chars.flatMap utf8Bytes, rest) := by
  induction chars generalizing fuel with
  | nil =>
    cases fuel with
    | zero => omega
    | succ f => simp [parseString]
  | cons c t ih =>
    cases fuel with
    | zero => omega
    | succ f =>
      simp only [List.flatMap_cons, List.append_assoc]
      rw [parseString_escapeChar, ih f (by simpa using h)]
      rfl

theorem parseQuoted_encoded (s : GoString) (hs : ValidUTF8 s) (rest : List Nat) (fuel : Nat)
    (h : (encodeString s).length ≤ fuel) :
    parseQuoted fuel (encodeString s ++ rest) = some (s, rest) := by
  obtain ⟨chars, rfl⟩ := hs
  have hlen := length_flatMap_escapeChar chars
  simp only [encodeString, appendString_text, List.length_cons, List.length_append,
    List.length_nil] at h
  have := parseString_encoded chars rest fuel (by omega)
  simpa [parseQuoted, encodeString, appendString_text] using this

theorem length_encodeString (s : GoString) : 2 ≤ (encodeString s).length := by
  simp [encodeString]

theorem length_encodeMember (kv : GoString × GoString) :
    (encodeMember kv).length = (encodeString kv.1).length + 1 + (encodeString kv.2).length := by
  simp only [encodeMember, List.length_append, List.length_cons]
  omega

theorem parseMembers_step (k v : GoString) (hk : ValidUTF8 k) (hv : ValidUTF8 v)
    (tail : List Nat) (acc : GoMap GoString) (fuel : Nat)
    (hfk : (encodeString k).length ≤ fuel + 1) (hfv : (encodeString v).length ≤ fuel + 1) :
    parseMembers (fuel + 1) (encodeMember (k, v) ++ tail) acc =
      match skipSpace tail with
      | [] => none
      | c :: r =>
        if c = ','.toNat then parseMembers fuel (skipSpace r) (acc.set k v)
        else if c = 125 then some (acc.set k v, r)
        else none := by
  have h1 := parseQuoted_encoded k hk (':'.toNat :: (encodeString v ++ tail)) (fuel + 1) hfk
  have h2 := parseQuoted_encoded v hv tail (fuel + 1) hfv
  have h3 : skipSpace (':'.toNat :: (encodeString v ++ tail))
      = ':'.toNat :: (encodeString v ++ tail) := rfl
  have h4 : skipSpace (encodeString v ++ tail) = encodeString v ++ tail := rfl
  rw [parseMembers]
  simp only [encodeMember, List.append_assoc, List.cons_append, h1, h3, h4, h2, expect,
    Option.bind_eq_bind, Option.some_bind, if_true]

theorem length_encodeMembers_pos (kv : GoString × GoString) (t : List (GoString × GoString)) :
    5 ≤ (encodeMembers (kv :: t)).length := by
  have := length_encodeMember kv
  have h1 := length_encodeString kv.1
  have h2 := length_encodeString kv.2
  cases t with
  | nil => simp only [encodeMembers]; omega
  | cons kv' t => simp only [encodeMembers, List.length_append, List.length_cons]; omega

theorem parseMembers_encoded (kvs : List (GoString × GoString)) (hne : kvs ≠ [])
    (hvalid : ∀ kv ∈ kvs, ValidUTF8 kv.1 ∧ ValidUTF8 kv.2)
    (acc : GoMap GoString) (rest : List Nat) (fuel : Nat)
    (hfuel : (encodeMembers kvs).length ≤ fuel) :
    parseMembers fuel (encodeMembers kvs ++ 125 :: rest) acc
      = some (assignAll kvs acc, rest) := by
  induction kvs generalizing acc fuel with
  | nil => exact absurd rfl hne
  | cons kv t ih =>
    obtain ⟨k, v⟩ := kv
    have hlen := length_encodeMember (k, v)
    have hkv := hvalid (k, v) (List.mem_cons_self _ _)
    cases fuel with
    | zero =>
      have := length_encodeMembers_pos (k, v) t
      omega
    | succ f =>
      cases t with
      | nil =>
        simp only [encodeMembers] at hfuel ⊢
        rw [parseMembers_step k v hkv.1 hkv.2 _ acc f (by simp only at hlen; omega)
          (by simp only at hlen; omega)]
        rfl
      | cons kv' t' =>
        simp only [encodeMembers, List.length_append, List.length_cons] at hfuel
        simp only [encodeMembers, List.append_assoc, List.cons_append]
        rw [parseMembers_step k v hkv.1 hkv.2 _ acc f (by simp only at hlen; omega)
          (by simp only at hlen; omega)]
        have hskip : ∀ tail, skipSpace (encodeMembers (kv' :: t') ++ tail)
            = encodeMembers (kv' :: t') ++ tail := by
          intro tail
          cases t' <;> rfl
        have h1 : skipSpace (','.toNat :: (encodeMembers (kv' :: t') ++ 125 :: rest))
            = ','.toNat :: (encodeMembers (kv' :: t') ++ 125 :: rest) := rfl
        rw [h1]
        simp only [if_true, hskip]
        rw [ih (by simp) (fun kv hkv => hvalid kv (List.mem_cons_of_mem _ hkv)) _ f (by omega)]
        rfl

theorem length_encodeObject (m : GoMap GoString) : 2 ≤ (encodeObject m).length := by
  simp [encodeObject]

theorem sortKeys_perm (m : GoMap GoString) : (sortKeys m).Perm m :=
  List.perm_insertionSort _ m

theorem parseObject_encoded (m : GoMap GoString)
    (hvalid : ∀ kv ∈ m, ValidUTF8 kv.1 ∧ ValidUTF8 kv.2) (rest : List Nat) (fuel : Nat)
    (hfuel : (encodeObject m).length ≤ fuel) :
    parseObject fuel (encodeObject m ++ rest)
      = some (assignAll (sortKeys m) [], rest) := by
  simp only [encodeObject, List.length_cons, List.length_append, List.length_nil] at hfuel
  have hvalid' : ∀ kv ∈ sortKeys m, ValidUTF8 kv.1 ∧ ValidUTF8 kv.2 :=
    fun kv hkv => hvalid kv ((sortKeys_perm m).mem_iff.1 hkv)
  cases hs : sortKeys m with
  | nil =>
    simp only [encodeObject, hs, encodeMembers, parseObject, expect]
    rfl
  | cons kv t =>
    rw [hs] at hvalid'
    have hm := parseMembers_encoded (kv :: t) (by simp) hvalid' [] rest fuel
      (by rw [hs] at hfuel; omega)
    have hstart : ∃ tail, encodeMembers (kv :: t) = quote :: tail := by
      cases t with
      | nil => exact ⟨_, rfl⟩
      | cons kv' t' => exact ⟨_, rfl⟩
    obtain ⟨tail, htail⟩ := hstart
    rw [htail] at hm
    simp only [encodeObject, hs, htail, parseObject, expect, List.cons_append,
      List.append_assoc, List.nil_append, if_true, Option.bind_eq_bind, Option.some_bind]
    have hsk : skipSpace (quote :: (tail ++ 125 :: rest))
        = quote :: (tail ++ 125 :: rest) := rfl
    rw [hsk]
    simp only [List.cons_append] at hm
    have hq : (quote = 125) = False := by decide
    simp only [hq, if_false]
    exact hm

theorem parseElements_encoded (ms : List (GoMap GoString)) (hne : ms ≠ [])
    (hvalid : ∀ m ∈ ms, ∀ kv ∈ m, ValidUTF8 kv.1 ∧ ValidUTF8 kv.2)
    (rest : List Nat) (fuel : Nat) (hfuel : (encodeObjects ms).length ≤ fuel) :
    parseElements fuel (encodeObjects ms ++ ']'.toNat :: rest)
      = some (ms.map fun m => assignAll (sortKeys m) [], rest) := by
  induction ms generalizing fuel with
  | nil => exact absurd rfl hne
  | cons m t ih =>
    have hlen := length_encodeObject m
    have hm := hvalid m (List.mem_cons_self _ _)
    cases fuel with
    | zero =>
      cases t with
      | nil => simp only [encodeObjects] at hfuel; omega
      | cons m' t' =>
        simp only [encodeObjects, List.length_append, List.length_cons] at hfuel; omega
    | succ f =>
      cases t with
      | nil =>
        simp only [encodeObjects] at hfuel ⊢
        simp only [parseElements, parseObject_encoded m hm _ (f + 1) hfuel,
          Option.bind_eq_bind, Option.some_bind]
        rfl
      | cons m' t' =>
        simp only [encodeObjects, List.length_append, List.length_cons] at hfuel
        simp only [encodeObjects, List.append_assoc, List.cons_append]
        simp only [parseElements,
          parseObject_encoded m hm _ (f + 1) (show _ ≤ f + 1 by omega)]
        have hskip : ∀ tail, skipSpace (encodeObjects (m' :: t') ++ tail)
            = encodeObjects (m' :: t') ++ tail := by
          intro tail
          cases t' <;> rfl
        have h1 : skipSpace (','.toNat :: (encodeObjects (m' :: t') ++ ']'.toNat :: rest))
            = ','.toNat :: (encodeObjects (m' :: t') ++ ']'.toNat :: rest) := rfl
        simp only [Option.bind_eq_bind, Option.some_bind, h1, if_true, hskip]
        rw [ih (by simp) (fun m hm => hvalid m (List.mem_cons_of_mem _ hm)) f (by omega)]
        rfl

theorem jsonUnmarshal_jsonText (ms : List (GoMap GoString))
    (hvalid : ∀ m ∈ ms, ∀ kv ∈ m, ValidUTF8 kv.1 ∧ ValidUTF8 kv.2) :
    jsonUnmarshal (jsonText ms) = .ok (ms.map fun m => assignAll (sortKeys m) []) := by
  cases ms with
  | nil => rfl
  | cons m t =>
    have hp := parseElements_encoded (m :: t) (by simp) hvalid []
      ((jsonText (m :: t)).length + 1)
      (by simp only [jsonText, List.length_cons, List.length_append]; omega)
    have hstart : ∃ tail, encodeObjects (m :: t) = 123 :: tail := by
      cases t with
      | nil => exact ⟨_, rfl⟩
      | cons m' t' => exact ⟨_, rfl⟩
    obtain ⟨tail, htail⟩ := hstart
    have hdata : jsonText (m :: t) = '['.toNat :: (123 :: (tail ++ [']'.toNat])) := by
      simp [jsonText, htail]
    rw [htail] at hp
    simp only [List.cons_append] at hp
    simp only [jsonUnmarshal, hdata]
    have h1 : skipSpace ('['.toNat :: 123 :: (tail ++ [']'.toNat]))
        = '['.toNat :: 123 :: (tail ++ [']'.toNat]) := rfl
    have h2 : skipSpace (123 :: (tail ++ [']'.toNat])) = 123 :: (tail ++ [']'.toNat]) := rfl
    have hq : (123 = ']'.toNat) = False := by decide
    simp only [h1, expect, if_true, h2, hq, if_false]
    rw [hdata] at hp
    rw [hp]
    rfl
theorem set_of_not_mem {V : Type} (m : GoMap V) (k : GoString) (v : V) (h : k ∉ m.keys) :
    m.set k v = m ++ [(k, v)] := by
  induction m with
  | nil => rfl
  | cons hd t ih =>
    obtain ⟨k0, v0⟩ := hd
    simp only [GoMap.keys, List.map_cons, List.mem_cons, not_or] at h
    have hk : k0 ≠ k := fun hc => h.1 hc.symm
    simp only [GoMap.set, hk, if_false, List.cons_append]
    rw [ih h.2]

theorem assignAll_nodup (kvs : List (GoString × GoString)) (acc : GoMap GoString)
    (h : (acc ++ kvs).keys.Nodup) : assignAll kvs acc = acc ++ kvs := by
  induction kvs generalizing acc with
  | nil => simp [assignAll]
  | cons kv t ih =>
    have hk : kv.1 ∉ acc.keys := by
      simp only [GoMap.keys, List.map_append, List.map_cons] at h
      have := (List.nodup_append.1 h).2.2
      intro hc
      exact this hc (List.mem_cons_self _ _)
    have hstep : acc.set kv.1 kv.2 = acc ++ [kv] := set_of_not_mem acc kv.1 kv.2 hk
    have := ih (acc ++ [kv]) (by simpa using h)
    simp only [assignAll, List.foldl_cons] at this ⊢
    rw [hstep, this]
    simp

theorem sortKeys_nodup (m : GoMap GoString) (h : m.keys.Nodup) : (sortKeys m).keys.Nodup :=
  ((sortKeys_perm m).map Prod.fst).nodup_iff.2 h

theorem get_sortKeys (m : GoMap GoString) (h : m.keys.Nodup) (k v : GoString) :
    (sortKeys m).get k = some v ↔ m.get k = some v := by
  constructor
  · intro hg
    exact GoMap.get_of_mem m k v h ((sortKeys_perm m).mem_iff.1 (GoMap.mem_of_get _ k v hg))
  · intro hg
    exact GoMap.get_of_mem _ k v (sortKeys_nodup m h)
      ((sortKeys_perm m).mem_iff.2 (GoMap.mem_of_get _ k v hg))

theorem mem_keys_flat (params : Values) (m : GoMap GoString) (k : GoString) :
    k ∈ (flat params m).keys ↔ k ∈ params.keys ∨ k ∈ m.keys := by
  induction params generalizing m with
  | nil => simp [flat, GoMap.keys]
  | cons hd t ih =>
    have h := ih (m.set hd.1 (hd.2.headD []))
    simp only [flat, List.foldl_cons] at h ⊢
    rw [h, GoMap.mem_keys_set]
    simp only [GoMap.keys, List.map_cons, List.mem_cons]
    tauto

theorem nodup_keys_flat (params : Values) (m : GoMap GoString) (h : m.keys.Nodup) :
    (flat params m).keys.Nodup := by
  induction params generalizing m with
  | nil => simpa [flat] using h
  | cons hd t ih =>
    simp only [flat, List.foldl_cons]
    exact ih _ (GoMap.nodup_keys_set m _ _ h)

theorem get_flat_of_not_mem (params : Values) (m : GoMap GoString) (k : GoString)
    (hk : k ∉ params.keys) : (flat params m).get k = m.get k := by
  induction params generalizing m with
  | nil => rfl
  | cons hd t ih =>
    simp only [GoMap.keys, List.map_cons, List.mem_cons, not_or] at hk
    have := ih (m.set hd.1 (hd.2.headD [])) hk.2
    simp only [flat, List.foldl_cons] at this ⊢
    rw [this, GoMap.get_set_ne]
    exact fun hc => hk.1 hc.symm

theorem get_flat (params : Values) (m : GoMap GoString) (k : GoString) (w : List GoString)
    (hn : params.keys.Nodup) (h : params.get k = some w) :
    (flat params m).get k = some (w.headD []) := by
  induction params generalizing m with
  | nil => simp [GoMap.get] at h
  | cons hd t ih =>
    obtain ⟨k0, v0⟩ := hd
    simp only [GoMap.keys, List.map_cons, List.nodup_cons] at hn
    by_cases hk : k0 = k
    · subst hk
      simp only [GoMap.get, if_true, Option.some.injEq] at h
      subst h
      have := get_flat_of_not_mem t (m.set k0 (v0.headD [])) k0 hn.1
      simp only [flat, List.foldl_cons] at this ⊢
      rw [this, GoMap.get_set_self]
    · simp only [GoMap.get, hk, if_false] at h
      simp only [flat, List.foldl_cons]
      exact ih _ hn.2 h

theorem get_flat_iff (r : APIRequest) (hb : Built r) (k v : GoString) :
    (flat r.params []).get k = some v ↔ r.params.get k = some [v] := by
  have hn := Built_nodup r hb
  have hs := Built_singletons r hb
  cases hg : r.params.get k with
  | none =>
    have hk : k ∉ r.params.keys := (GoMap.get_eq_none_iff _ _).1 hg
    rw [get_flat_of_not_mem _ _ _ hk]
    simp [GoMap.get]
  | some w =>
    rw [get_flat _ _ _ _ hn hg]
    have hw := hs (k, w) (GoMap.mem_of_get _ _ _ hg)
    match w, hw with
    | [x], _ => simp

theorem Batch_posts {D : Type} (PostForm : Values → Except String Response)
    (unmarshal : GoString → Except String (List (linodeResponse D)))
    (first : APIRequest) (rest : List APIRequest) (key : GoString)
    (hb : ∀ r ∈ first :: rest, Built r)
    (hc : ∀ r ∈ first :: rest, r.params.get (str "api_key") = some [key]) :
    (Batch PostForm unmarshal (first :: rest)).posts = [aggregate key (first :: rest)] := by
  rw [Batch_shared PostForm unmarshal first rest key hb hc]
  cases PostForm (aggregate key (first :: rest)) with
  | error e => rfl
  | ok resp =>
    dsimp only
    cases getWholeBody resp with
    | error e => rfl
    | ok body =>
      dsimp only
      cases unmarshal body with
      | error e => rfl
      | ok results =>
        dsimp only
        split <;> rfl


theorem mem_flat (params : Values) (m : GoMap GoString) (x : GoString × GoString)
    (hx : x ∈ flat params m) : x ∈ m ∨ ∃ y ∈ params, x = (y.1, y.2.headD []) := by
  induction params generalizing m with
  | nil => exact Or.inl (by simpa [flat] using hx)
  | cons hd t ih =>
    simp only [flat, List.foldl_cons] at hx
    rcases ih (m.set hd.1 (hd.2.headD [])) hx with h | ⟨y, hy, hxy⟩
    · rcases GoMap.mem_set _ _ _ _ h with h | h
      · exact Or.inr ⟨hd, List.mem_cons_self _ _, h⟩
      · exact Or.inl h
    · exact Or.inr ⟨y, List.mem_cons_of_mem _ hy, hxy⟩

theorem valid_flat (r : APIRequest) (ht : TextParams r) :
    ∀ kv ∈ flat r.params [], ValidUTF8 kv.1 ∧ ValidUTF8 kv.2 := by
  intro kv hkv
  rcases mem_flat r.params [] kv hkv with h | ⟨y, hy, rfl⟩
  · simp at h
  · have hy' := ht y hy
    refine ⟨hy'.1, ?_⟩
    cases hv : y.2 with
    | nil => exact ⟨[], rfl⟩
    | cons v vs =>
      simp only [List.headD_cons]
      exact hy'.2 v (by rw [hv]; exact List.mem_cons_self _ _)

/-- C8, as stated, fails: for the one request built from the argument `x` with
the one-byte value `0xFF`, the string sent under `api_requestArray` holds the
escape of U+FFFD in its place, and decodes to a map that gives `x` the three
bytes of U+FFFD, not the value of the request. -/
theorem Batch_requestArray_not_recovered :
    (Batch (okPost []) (fixedEnvelopes ([] : List (linodeResponse GoString)))
      [NewAPIRequest (str "test.echo") (str "k") [(str "x", .str [255])]]).posts
      = [[(str "api_key", [str "k"]), (str "api_action", [str "batch"]),
          (str "api_requestArray", [coercedArrayText])]] ∧
    jsonUnmarshal coercedArrayText
      = .ok [[(str "api_action", str "test.echo"), (str "api_key", str "k"),
          (str "x", [239, 191, 189])]] ∧
    (NewAPIRequest (str "test.echo") (str "k") [(str "x", .str [255])]).params.get (str "x")
      = some [[255]] := by
  decide

/-- C8, amended: for a non-empty sequence of built requests that share a
credential and whose parameter names and values are all well-formed UTF-8,
the one parameter set `Batch` transmits has `api_action = ["batch"]`,
`api_key = [the credential]` and under `api_requestArray` a single string; that
string decodes as JSON to an array of as many string-to-string maps as there
are requests, and map `i` has exactly the parameters of request `i`, its own
`api_action` and `api_key` included, each with its one string. -/
theorem Batch_requestArray_roundtrip {D : Type}
    (PostForm : Values → Except String Response)
    (unmarshal : GoString → Except String (List (linodeResponse D)))
    (first : APIRequest) (rest : List APIRequest) (key : GoString)
    (hb : ∀ r ∈ first :: rest, Built r)
    (hc : ∀ r ∈ first :: rest, r.params.get (str "api_key") = some [key])
    (ht : ∀ r ∈ first :: rest, TextParams r) :
    (Batch PostForm unmarshal (first :: rest)).posts = [aggregate key (first :: rest)] ∧
    (aggregate key (first :: rest)).get (str "api_action") = some [str "batch"] ∧
    (aggregate key (first :: rest)).get (str "api_key") = some [key] ∧
    ∃ text decoded,
      (aggregate key (first :: rest)).get (str "api_requestArray") = some [text] ∧
      jsonUnmarshal text = .ok decoded ∧
      decoded.length = (first :: rest).length ∧
      ∀ (i : Nat) (r : APIRequest), (first :: rest)[i]? = some r →
        ∃ m, decoded[i]? = some m ∧ m.keys.Nodup ∧
          (∀ k v, m.get k = some v ↔ r.params.get k = some [v]) ∧
          m.get (str "api_key") = some key ∧
          (∃ action, m.get (str "api_action") = some action) := by
  have hvalid : ∀ m ∈ (first :: rest).map (fun r => flat r.params []),
      ∀ kv ∈ m, ValidUTF8 kv.1 ∧ ValidUTF8 kv.2 := by
    intro m hm
    obtain ⟨r, hr, rfl⟩ := List.mem_map.1 hm
    exact valid_flat r (ht r hr)
  have e1 : str "api_key" ≠ str "api_requestArray" := by decide
  have e2 : str "api_action" ≠ str "api_requestArray" := by decide
  have e3 : str "api_key" ≠ str "api_action" := by decide
  refine ⟨Batch_posts PostForm unmarshal first rest key hb hc, ?_, ?_,
    jsonText ((first :: rest).map fun r => flat r.params []), _, ?_,
    jsonUnmarshal_jsonText _ hvalid, by simp, ?_⟩
  · simp [aggregate, GoMap.get, e3]
  · simp [aggregate, GoMap.get]
  · simp [aggregate, GoMap.get, e1, e2]
  · intro i r hi
    have hr : r ∈ first :: rest := List.getElem?_mem hi
    have hbr := hb r hr
    have hnd : (flat r.params []).keys.Nodup := nodup_keys_flat _ _ (by simp [GoMap.keys])
    have hsn := sortKeys_nodup _ hnd
    have hassign : assignAll (sortKeys (flat r.params [])) [] = sortKeys (flat r.params []) := by
      have := assignAll_nodup (sortKeys (flat r.params [])) [] (by simpa using hsn)
      simpa using this
    have hiff : ∀ k v, (sortKeys (flat r.params [])).get k = some v ↔
        r.params.get k = some [v] := by
      intro k v
      rw [get_sortKeys _ hnd, get_flat_iff r hbr]
    refine ⟨sortKeys (flat r.params []), ?_, hsn, hiff, ?_, ?_⟩
    · simp only [List.getElem?_map, hi, Option.map_some', hassign]
    · exact (hiff _ _).2 (hc r hr)
    · obtain ⟨a, k', args, hp⟩ := hbr
      exact ⟨a, (hiff _ _).2
        (Built_get r a k' args hp _ _ (NewAPIRequest_get_action a k' args))⟩

theorem valid_str (s : String) : ValidUTF8 (str s) := ⟨s.data, rfl⟩

theorem valid_Sprint (v : GoValue) (h : ∀ s, v = .str s → ValidUTF8 s) :
    ValidUTF8 (Sprint v) := by
  cases v with
  | str s => exact h s rfl
  | int n =>
    simp only [Sprint, decimal]
    split <;> exact valid_str _
  | bool b =>
    simp only [Sprint]
    split <;> exact valid_str _
  | nil => exact valid_str _

theorem mem_argValues (args : GoMap GoValue) (val : Values) (x : GoString × List GoString)
    (hx : x ∈ argValues args val) : x ∈ val ∨ ∃ kv ∈ args, x = (kv.1, [Sprint kv.2]) := by
  induction args generalizing val with
  | nil => exact Or.inl (by simpa [argValues] using hx)
  | cons hd t ih =>
    simp only [argValues, List.foldl_cons] at hx
    rcases ih (val.set hd.1 [Sprint hd.2]) hx with h | ⟨kv, hkv, hxy⟩
    · rcases GoMap.mem_set _ _ _ _ h with h | h
      · exact Or.inr ⟨hd, List.mem_cons_self _ _, h⟩
      · exact Or.inl h
    · exact Or.inr ⟨kv, List.mem_cons_of_mem _ hkv, hxy⟩

theorem TextParams_new (action apiKey : GoString) (args : GoMap GoValue)
    (ha : ValidUTF8 action) (hk : ValidUTF8 apiKey)
    (hargs : ∀ kv ∈ args, ValidUTF8 kv.1 ∧ ∀ s, kv.2 = .str s → ValidUTF8 s) :
    TextParams (NewAPIRequest action apiKey args) := by
  intro x hx
  simp only [NewAPIRequest] at hx
  rcases GoMap.mem_set _ _ _ _ hx with hx | hx
  · subst hx
    exact ⟨valid_str _, fun v hv => by simp at hv; subst hv; exact hk⟩
  · rcases GoMap.mem_set _ _ _ _ hx with hx | hx
    · subst hx
      exact ⟨valid_str _, fun v hv => by simp at hv; subst hv; exact ha⟩
    · rcases mem_argValues args [] x hx with h | ⟨kv, hkv, rfl⟩
      · simp at h
      · have := hargs kv hkv
        exact ⟨this.1, fun v hv => by simp at hv; subst hv; exact valid_Sprint _ this.2⟩

set_option maxRecDepth 20000 in
/-- C8 at a concrete input: the two echo requests of the sample program. -/
theorem Batch_requestArray_roundtrip_witness :
    (Batch (okPost (str "[]")) (fixedEnvelopes ([] : List (linodeResponse GoString)))
      [sampleFoo (str "secret"), sampleA (str "secret")]).posts
      = [aggregate (str "secret") [sampleFoo (str "secret"), sampleA (str "secret")]] ∧
    (aggregate (str "secret") [sampleFoo (str "secret"), sampleA (str "secret")]).get
        (str "api_requestArray")
      = some [sampleArrayText] ∧
    jsonUnmarshal sampleArrayText
      = .ok [[(str "api_action", str "test.echo"), (str "api_key", str "secret"),
            (str "foo", str "bar")],
          [(str "a", str "b"), (str "api_action", str "test.echo"),
            (str "api_key", str "secret")]] :=
  ⟨(Batch_requestArray_roundtrip (okPost (str "[]"))
      (fixedEnvelopes ([] : List (linodeResponse GoString)))
      (sampleFoo (str "secret"))
      [sampleA (str "secret")]
      (str "secret")
      (by
        intro r hr
        simp only [List.mem_cons, List.mem_singleton, List.not_mem_nil, or_false] at hr
        rcases hr with hr | hr <;> subst hr <;> exact Built_new _ _ _)
      (by
        intro r hr
        simp only [List.mem_cons, List.mem_singleton, List.not_mem_nil, or_false] at hr
        rcases hr with hr | hr <;> subst hr <;> decide)
      (by
        intro r hr
        simp only [List.mem_cons, List.mem_singleton, List.not_mem_nil, or_false] at hr
        rcases hr with hr | hr <;> subst hr <;>
          refine TextParams_new _ _ _ (valid_str _) (valid_str _) ?_ <;>
          intro kv hkv <;>
          simp only [List.mem_singleton] at hkv <;>
          subst hkv <;>
          exact ⟨valid_str _, fun s hs => by cases hs; exact valid_str _⟩)).1,
    by decide, by decide⟩

end Linode
